import Mathlib

/-
  Shallow embedding of the core of the `lsh-rs` locality-sensitive-hashing
  library (files `src/lsh-rs/src/lsh/lsh.rs`, `src/lsh-rs/src/table/mem.rs`,
  `src/lsh-rs/src/multi_probe.rs`, `src/lsh-rs/src/hash.rs`).

  Modelling conventions:
  * machine integers: ids and counters are `Nat` (the `u32` id counter wraps
    explicitly modulo 2^32 where the source increments it, `usize` subtraction
    wraps modulo 2^64 as in a release build); hash-code elements (`i8`..`i64`)
    are `Int`;
  * floating point scalars (`f32`) are embedded as `ℚ`; the floating square
    root, which is irrational, is abstracted as an explicit `sqrt` parameter
    of the functions that use it;
  * `Result<T, Error>` and Rust panics are embedded together in `Outcome`:
    `.ok`/`.err` mirror `Ok`/`Err`, and `.fatal` marks a Rust panic
    (index out of bounds, ndarray shape mismatch, explicit `panic!`);
  * `FnvHashMap<Vec<K>, Bucket>` is embedded as an association list keyed by
    the code word, `FnvHashSet<u32>` as `Finset ℕ`.
-/

namespace LshRs

/-- Hash code word (`Vec<K>` in the source, `K` one of `i8`..`i64`). -/
abbrev Code := List Int

/-- `pub type Bucket = FnvHashSet<u32>` (`table/general.rs`). -/
abbrev Bucket := Finset ℕ

/-- The error variants of `error.rs` that the embedded core can produce. -/
inductive Err
  | failed (msg : String)
  | notFound
  deriving DecidableEq, Repr

/-- Result of running a piece of Rust code: `Ok`, `Err`, or a panic. -/
inductive Outcome (α : Type _)
  | ok (val : α)
  | err (e : Err)
  | fatal
  deriving DecidableEq, Repr

/-- One in-memory hash table: the `FnvHashMap<Vec<K>, Bucket>` of
`MemoryTable`, embedded as an association list from code word to bucket. -/
abbrev CodeMap := List (Code × Bucket)

/-- `map.get(hash)` on the association-list embedding of the hash map. -/
def tblGet (tbl : CodeMap) (hash : Code) : Option Bucket :=
  match tbl with
  | [] => none
  | (k, b) :: rest => if k = hash then some b else tblGet rest hash

/-- `tbl.entry(hash).or_insert_with(FnvHashSet::default).insert(idx)`:
insert `idx` into the bucket of `hash`, creating the bucket if absent. -/
def tblInsert (tbl : CodeMap) (hash : Code) (idx : ℕ) : CodeMap :=
  match tbl with
  | [] => [(hash, {idx})]
  | (k, b) :: rest =>
      if k = hash then (k, insert idx b) :: rest else (k, b) :: tblInsert rest hash idx

/-- Replace the bucket stored under `hash` (used for `bucket.remove(&idx)`
through a `get_mut`); no-op when the key is absent. -/
def tblSet (tbl : CodeMap) (hash : Code) (b' : Bucket) : CodeMap :=
  match tbl with
  | [] => []
  | (k, b) :: rest =>
      if k = hash then (k, b') :: rest else (k, b) :: tblSet rest hash b'

/-- Apply `f` to the element at position `i` of a list; no-op out of range
(the source reaches out-of-range spots only through `get_unchecked`, i.e.
undefined behaviour; the theorems below always assume the index in range). -/
def updateAt (l : List α) (i : ℕ) (f : α → α) : List α :=
  match l, i with
  | [], _ => []
  | x :: xs, 0 => f x :: xs
  | x :: xs, n + 1 => x :: updateAt xs n f

/-- `struct MemoryTable` of `table/mem.rs` together with its `VecStore`
(the vector store is inlined as the list of stored data points). -/
structure MemoryTable (N : Type) where
  hash_tables : List CodeMap
  n_hash_tables : ℕ
  vec_store : List (List N)
  only_index_storage : Bool
  counter : ℕ
  deriving DecidableEq

/-- `MemoryTable::insert_idx` (a `get_unchecked_mut` indexed table insert). -/
def MemoryTable.insert_idx (m : MemoryTable N) (idx : ℕ) (hash : Code) (hash_table : ℕ) :
    MemoryTable N :=
  { m with hash_tables := updateAt m.hash_tables hash_table (fun tbl => tblInsert tbl hash idx) }

/-- `MemoryTable::remove_idx`: look up the bucket of `hash` in table
`hash_table`; `NotFound` if the bucket is absent, otherwise remove `idx`.
The indexing `&mut self.hash_tables[hash_table]` panics out of range. -/
def MemoryTable.remove_idx (m : MemoryTable N) (idx : ℕ) (hash : Code) (hash_table : ℕ) :
    MemoryTable N × Outcome Unit :=
  if hash_table < m.hash_tables.length then
    match tblGet (m.hash_tables.getD hash_table []) hash with
    | none => (m, .err .notFound)
    | some bucket =>
        ({ m with
            hash_tables :=
              updateAt m.hash_tables hash_table (fun tbl => tblSet tbl hash (bucket.erase idx)) },
          .ok ())
  else (m, .fatal)

/-- `MemoryTable::put` (`table/mem.rs` lines 98-112): store `idx = counter`
in the bucket, then push the vector on table `0` (unless `only_index`),
`else` increment the `u32` counter on the last table. -/
def MemoryTable.put (m : MemoryTable N) (hash : Code) (d : List N) (hash_table : ℕ) :
    MemoryTable N × ℕ :=
  let idx := m.counter
  let m1 := m.insert_idx idx hash hash_table
  let m2 :=
    if hash_table = 0 ∧ m1.only_index_storage = false then
      { m1 with vec_store := m1.vec_store ++ [d] }
    else if hash_table = m1.n_hash_tables - 1 then
      { m1 with counter := (m1.counter + 1) % 4294967296 }
    else m1
  (m2, idx)

/-- `VecStore::position`: linear scan of the vector store with `all_eq`. -/
def vecPosition [DecidableEq N] (store : List (List N)) (d : List N) : Option ℕ :=
  store.findIdx? (fun x => x = d)

/-- `MemoryTable::delete`: locate the data point in the vector store (a
missing point is silently `Ok`), then `remove_idx` from the table. -/
def MemoryTable.delete [DecidableEq N] (m : MemoryTable N) (hash : Code) (d : List N)
    (hash_table : ℕ) : MemoryTable N × Outcome Unit :=
  match vecPosition m.vec_store d with
  | none => (m, .ok ())
  | some idx => m.remove_idx idx hash hash_table

/-- `MemoryTable::update_by_idx`: `remove_idx(idx, old_hash)?` then
`insert_idx(idx, new_hash)`. -/
def MemoryTable.update_by_idx (m : MemoryTable N) (old_hash new_hash : Code) (idx : ℕ)
    (hash_table : ℕ) : MemoryTable N × Outcome Unit :=
  match m.remove_idx idx old_hash hash_table with
  | (m', .ok _) => (m'.insert_idx idx new_hash hash_table, .ok ())
  | (m', o) => (m', o)

/-- `MemoryTable::query_bucket`: clone the bucket of `hash` in table
`hash_table`, `NotFound` when the code word has no bucket. -/
def MemoryTable.query_bucket (m : MemoryTable N) (hash : Code) (hash_table : ℕ) :
    Outcome Bucket :=
  if hash_table < m.hash_tables.length then
    match tblGet (m.hash_tables.getD hash_table []) hash with
    | none => .err .notFound
    | some bucket => .ok bucket
  else .fatal

/-- `MemoryTable::idx_to_datapoint` (`VecStore::get` panics out of range). -/
def MemoryTable.idx_to_datapoint (m : MemoryTable N) (idx : ℕ) : Outcome (List N) :=
  match m.vec_store.get? idx with
  | some v => .ok v
  | none => .fatal

/-- The bucket currently stored for `hash` in table `t` (`∅` when absent);
a convenience view used by the theorems. -/
def bucketAt (m : MemoryTable N) (t : ℕ) (hash : Code) : Bucket :=
  (tblGet (m.hash_tables.getD t []) hash).getD ∅

/-- The `VecHash<N, K>` trait object of `hash.rs`, embedded as its method
dictionary.  A hasher that would panic inside ndarray on a shape mismatch
returns `none` from the two hashing methods.  The two capability probes
`as_query_directed_probe` / `as_step_wise_probe` are the `Option`-returning
trait methods used by `multi_probe_bucket_union` for dispatch. -/
structure HasherFns (N : Type) where
  hash_vec_query : List N → Option Code
  hash_vec_put : List N → Option Code
  as_query_directed_probe : Option (List N → ℕ → Outcome (List Code))
  as_step_wise_probe : Option (List N → ℕ → ℕ → Outcome (List Code))

/-- `struct LSH<H, N, T, K>` of `lsh/lsh.rs`, specialised to the in-memory
backend `MemoryTable`.  `hash_tables` is modelled as always present (the
source wraps it in `Option` only to move it in and out during mutation). -/
structure LSH (N : Type) where
  n_hash_tables : ℕ
  n_projections : ℕ
  hashers : List (HasherFns N)
  dim : ℕ
  hash_tables : MemoryTable N
  only_index_storage : Bool
  multi_probe : Bool
  multi_probe_budget : ℕ

/-- `LSH::validate_vec`. -/
def LSH.validate_vec (e : LSH N) (v : List A) : Outcome Unit :=
  if ¬ (v.length = e.dim) then
    .err (.failed "data point is not valid, are the dimensions correct?")
  else .ok ()

/-- The loop body of `LSH::store_vec`: `for (i, proj) in hashers.enumerate()
{ let hash = proj.hash_vec_put(v); idx = ht.put(hash, v, i)?; }`.
Threads the table and the (repeatedly overwritten) `idx` variable. -/
def store_vec_loop (v : List N) :
    List (ℕ × HasherFns N) → MemoryTable N → ℕ → Outcome (MemoryTable N × ℕ)
  | [], ht, idx => .ok (ht, idx)
  | (i, proj) :: remaining, ht, _ =>
      match proj.hash_vec_put v with
      | none => .fatal
      | some hash =>
          let r := ht.put hash v i
          store_vec_loop v remaining r.1 r.2

/-- `LSH::store_vec` (`lsh/lsh.rs` lines 434-445). -/
def LSH.store_vec (e : LSH N) (v : List N) : Outcome (LSH N × ℕ) :=
  match e.validate_vec v with
  | .ok _ =>
      match store_vec_loop v e.hashers.enum e.hash_tables 0 with
      | .ok (ht, idx) => .ok ({ e with hash_tables := ht }, idx)
      | .err er => .err er
      | .fatal => .fatal
  | .err er => .err er
  | .fatal => .fatal

/-- Inner loop of `LSH::store_vecs` over the data points for one fixed hash
table `i`; the assigned index is recorded only while `i = 0` ("only for the
first hash table save the index as it will be the same for all"). -/
def store_vecs_inner (i : ℕ) (proj : HasherFns N) :
    List (List N) → MemoryTable N → List ℕ → Outcome (MemoryTable N × List ℕ)
  | [], ht, acc => .ok (ht, acc)
  | v :: rest, ht, acc =>
      match proj.hash_vec_put v with
      | none => .fatal
      | some hash =>
          let r := ht.put hash v i
          store_vecs_inner i proj rest r.1 (if i = 0 then acc ++ [r.2] else acc)

/-- Outer loop of `LSH::store_vecs` over the enumerated hash tables. -/
def store_vecs_outer (vs : List (List N)) :
    List (ℕ × HasherFns N) → MemoryTable N → List ℕ → Outcome (MemoryTable N × List ℕ)
  | [], ht, acc => .ok (ht, acc)
  | (i, proj) :: remaining, ht, acc =>
      match store_vecs_inner i proj vs ht acc with
      | .ok (ht', acc') => store_vecs_outer vs remaining ht' acc'
      | .err er => .err er
      | .fatal => .fatal

/-- `LSH::store_vecs` (`lsh/lsh.rs` lines 256-278): validate `vs[0]` (the
indexing panics on an empty slice), then hash tables in the outer loop and
vectors in the inner loop.  `increase_storage` is a pure capacity hint with
no observable effect and is omitted. -/
def LSH.store_vecs (e : LSH N) (vs : List (List N)) : Outcome (LSH N × List ℕ) :=
  match vs with
  | [] => .fatal
  | v0 :: _ =>
      match e.validate_vec v0 with
      | .ok _ =>
          match store_vecs_outer vs e.hashers.enum e.hash_tables [] with
          | .ok (ht, idxs) => .ok ({ e with hash_tables := ht }, idxs)
          | .err er => .err er
          | .fatal => .fatal
      | .err er => .err er
      | .fatal => .fatal

/-- `LSH::process_bucket_union_result`: a `NotFound` from the backend is
converted into an empty contribution, a found bucket is unioned in. -/
def process_bucket_union_result (ht : MemoryTable N) (hash : Code) (hash_table_idx : ℕ)
    (bucket_union : Bucket) : Outcome Bucket :=
  match ht.query_bucket hash hash_table_idx with
  | .err .notFound => .ok bucket_union
  | .ok bucket => .ok (bucket_union ∪ bucket)
  | .err e => .err e
  | .fatal => .fatal

/-- The single-probe loop of `LSH::query_bucket_union` over the enumerated
hashers. -/
def query_union_loop (v : List N) (ht : MemoryTable N) :
    List (ℕ × HasherFns N) → Bucket → Outcome Bucket
  | [], acc => .ok acc
  | (i, proj) :: remaining, acc =>
      match proj.hash_vec_query v with
      | none => .fatal
      | some hash =>
          match process_bucket_union_result ht hash i acc with
          | .ok acc' => query_union_loop v ht remaining acc'
          | .err er => .err er
          | .fatal => .fatal

/-- `for hash in hashes { process_bucket_union_result(&hash, i, ...)? }`
inside `multi_probe_bucket_union`, for one table `i`. -/
def probe_hashes_loop (ht : MemoryTable N) (i : ℕ) :
    List Code → Bucket → Outcome Bucket
  | [], acc => .ok acc
  | hash :: rest, acc =>
      match process_bucket_union_result ht hash i acc with
      | .ok acc' => probe_hashes_loop ht i rest acc'
      | .err er => .err er
      | .fatal => .fatal

/-- Query-directed branch of `multi_probe_bucket_union`: for every hasher
that implements `QueryDirectedProbe`, probe all its generated hashes. -/
def mp_qd_loop (v : List N) (budget : ℕ) (ht : MemoryTable N) :
    List (ℕ × HasherFns N) → Bucket → Outcome Bucket
  | [], acc => .ok acc
  | (i, hasher) :: remaining, acc =>
      match hasher.as_query_directed_probe with
      | none => mp_qd_loop v budget ht remaining acc
      | some h =>
          match h v budget with
          | .ok hashes =>
              match probe_hashes_loop ht i hashes acc with
              | .ok acc' => mp_qd_loop v budget ht remaining acc'
              | .err er => .err er
              | .fatal => .fatal
          | .err er => .err er
          | .fatal => .fatal

/-- Step-wise branch of `multi_probe_bucket_union`. -/
def mp_sw_loop (v : List N) (budget : ℕ) (n_projections : ℕ) (ht : MemoryTable N) :
    List (ℕ × HasherFns N) → Bucket → Outcome Bucket
  | [], acc => .ok acc
  | (i, hasher) :: remaining, acc =>
      match hasher.as_step_wise_probe with
      | none => mp_sw_loop v budget n_projections ht remaining acc
      | some h =>
          match h v budget n_projections with
          | .ok hashes =>
              match probe_hashes_loop ht i hashes acc with
              | .ok acc' => mp_sw_loop v budget n_projections ht remaining acc'
              | .err er => .err er
              | .fatal => .fatal
          | .err er => .err er
          | .fatal => .fatal

/-- `LSH::multi_probe_bucket_union` (`multi_probe.rs` lines 387-418).
`&self.hashers[0]` panics on an empty hasher list; an "unimplemented!()"
fires when neither capability is present. -/
def LSH.multi_probe_bucket_union (e : LSH N) (v : List N) : Outcome Bucket :=
  match e.validate_vec v with
  | .ok _ =>
      match e.hashers with
      | [] => .fatal
      | h0 :: _ =>
          if (h0.as_query_directed_probe).isSome then
            mp_qd_loop v e.multi_probe_budget e.hash_tables e.hashers.enum ∅
          else if (h0.as_step_wise_probe).isSome then
            mp_sw_loop v e.multi_probe_budget e.n_projections e.hash_tables e.hashers.enum ∅
          else .fatal
  | .err er => .err er
  | .fatal => .fatal

/-- `LSH::query_bucket_union` (`lsh/lsh.rs` lines 464-477). -/
def LSH.query_bucket_union (e : LSH N) (v : List N) : Outcome Bucket :=
  match e.validate_vec v with
  | .ok _ =>
      if e.multi_probe then e.multi_probe_bucket_union v
      else query_union_loop v e.hash_tables e.hashers.enum ∅
  | .err er => .err er
  | .fatal => .fatal

/-- `LSH::query_bucket_ids`: validate, take the union of the matching
buckets.  The source then collects the `FnvHashSet` into a `Vec` in
unspecified iteration order; the embedding keeps the id set itself. -/
def LSH.query_bucket_ids (e : LSH N) (v : List N) : Outcome Bucket :=
  match e.validate_vec v with
  | .ok _ => e.query_bucket_union v
  | .err er => .err er
  | .fatal => .fatal

/-- Resolve every id of a bucket through `idx_to_datapoint` (the `collect`
of `LSH::query_bucket`); the set is iterated in ascending id order. -/
def datapoints_of (m : MemoryTable N) : List ℕ → Outcome (List (List N))
  | [] => .ok []
  | idx :: rest =>
      match m.idx_to_datapoint idx with
      | .ok v =>
          match datapoints_of m rest with
          | .ok vs => .ok (v :: vs)
          | .err er => .err er
          | .fatal => .fatal
      | .err er => .err er
      | .fatal => .fatal

/-- `LSH::query_bucket` (`lsh/lsh.rs` lines 484-497). -/
def LSH.query_bucket (e : LSH N) (v : List N) : Outcome (List (List N)) :=
  match e.validate_vec v with
  | .ok _ =>
      if e.only_index_storage then
        .err (.failed "cannot query bucket, use query_bucket_ids")
      else
        match e.query_bucket_union v with
        | .ok bucket_union => datapoints_of e.hash_tables (bucket_union.sort (· ≤ ·))
        | .err er => .err er
        | .fatal => .fatal
  | .err er => .err er
  | .fatal => .fatal

/-- Loop body of `LSH::update_by_idx`: note that the source performs **no**
`validate_vec` on either vector; a wrong-length vector reaches the hasher. -/
def update_loop (new_v old_v : List N) (idx : ℕ) :
    List (ℕ × HasherFns N) → MemoryTable N → Outcome (MemoryTable N)
  | [], ht => .ok ht
  | (i, proj) :: remaining, ht =>
      match proj.hash_vec_put new_v with
      | none => .fatal
      | some new_hash =>
          match proj.hash_vec_put old_v with
          | none => .fatal
          | some old_hash =>
              match ht.update_by_idx old_hash new_hash idx i with
              | (ht', .ok _) => update_loop new_v old_v idx remaining ht'
              | (_, .err er) => .err er
              | (_, .fatal) => .fatal

/-- `LSH::update_by_idx` (`lsh/lsh.rs` lines 453-462). -/
def LSH.update_by_idx (e : LSH N) (idx : ℕ) (new_v old_v : List N) : Outcome (LSH N) :=
  match update_loop new_v old_v idx e.hashers.enum e.hash_tables with
  | .ok ht => .ok { e with hash_tables := ht }
  | .err er => .err er
  | .fatal => .fatal

/-- Loop body of `LSH::delete_vec`; backend errors are swallowed by
`unwrap_or_default()` (a panic inside `delete` still aborts). -/
def delete_loop [DecidableEq N] (v : List N) :
    List (ℕ × HasherFns N) → MemoryTable N → Outcome (MemoryTable N)
  | [], ht => .ok ht
  | (i, proj) :: remaining, ht =>
      match proj.hash_vec_query v with
      | none => .fatal
      | some hash =>
          let r := ht.delete hash v i
          match r.2 with
          | .fatal => .fatal
          | _ => delete_loop v remaining r.1

/-- `LSH::delete_vec` (`lsh/lsh.rs` lines 532-541). -/
def LSH.delete_vec [DecidableEq N] (e : LSH N) (v : List N) : Outcome (LSH N) :=
  match e.validate_vec v with
  | .ok _ =>
      match delete_loop v e.hashers.enum e.hash_tables with
      | .ok ht => .ok { e with hash_tables := ht }
      | .err er => .err er
      | .fatal => .fatal
  | .err er => .err er
  | .fatal => .fatal

/-- ndarray dot product of two equal-length vectors.  The scalar type is
generic, mirroring the source's `N: Numeric` bound (floating scalars are
embedded as `ℚ`, integer scalars as `ℤ`). -/
def dot_prod [LinearOrderedCommRing N] (u w : List N) : N := (List.zipWith (· * ·) u w).sum

/-- `self.a.dot(&aview1(v))` for a `k × dim` matrix held as its rows;
ndarray panics (here: `none`) when `v` does not have `dim` entries. -/
def mat_vec [LinearOrderedCommRing N] (a : List (List N)) (v : List N) : Option (List N) :=
  if a.all (fun row => row.length = v.length) then some (a.map (fun row => dot_prod row v))
  else none

/-- `struct SignRandomProjections` (`hash.rs`): the random hyperplanes are
carried as explicit data (the source samples them from a seeded RNG and
casts them into the scalar type `N: Numeric`, which ranges over both the
floating and the integer machine scalars). -/
structure SignRandomProjections (N : Type) where
  hyperplanes : List (List N)

/-- `SignRandomProjections::hash_vec`: sign of `H · v` per row, encoded as
`{0, 1}` (`if ai > 0 { 1 } else { 0 }`). -/
def SignRandomProjections.hash_vec [LinearOrderedCommRing N] (s : SignRandomProjections N)
    (v : List N) : Option Code :=
  (mat_vec s.hyperplanes v).map (List.map (fun ai => if 0 < ai then (1 : Int) else 0))

/-- `VecHash::hash_vec_query` for SRP (delegates to `hash_vec`). -/
def SignRandomProjections.hash_vec_query [LinearOrderedCommRing N]
    (s : SignRandomProjections N) (v : List N) : Option Code :=
  s.hash_vec v

/-- `itertools`' `combinations(n)` over a list, in the lexicographic order
itertools produces for an ordered input. -/
def combinations : ℕ → List ℕ → List (List ℕ)
  | 0, _ => [[]]
  | _ + 1, [] => []
  | n + 1, x :: xs => (combinations n xs).map (x :: ·) ++ combinations (n + 1) xs

/-- `step_wise_perturb` (`multi_probe.rs` lines 108-140): all
`n_perturbations`-element combinations of perturbation slots, each slot
decoded to `(index, shift)` with shift `-1` at or above the switch point. -/
def step_wise_perturb (hash_length n_perturbations : ℕ) (two_shifts : Bool) :
    List (List (ℕ × Int)) :=
  let multiply := if two_shifts then 2 else 1
  let idx := List.range (hash_length * multiply)
  let switchpoint := hash_length
  (combinations n_perturbations idx).map (fun comb =>
    comb.map (fun i => if switchpoint ≤ i then ((i - switchpoint : ℕ), (-1 : Int)) else (i, 1)))

/-- `let mut new_perturb = vec![0; hash_len]; ... new_perturb[idx] += shift`. -/
def perturb_vec (hash_len : ℕ) (v : List (ℕ × Int)) : List Int :=
  v.foldl (fun acc p => updateAt acc p.1 (· + p.2)) (List.replicate hash_len 0)

/-- Wrapping `usize` subtraction: the source's `budget -= n_combinations`
underflows whenever fewer combinations than the remaining budget exist; in a
release build (the published library) it wraps modulo `2^64`. -/
def usize_wsub (a b : ℕ) : ℕ :=
  ((a % 18446744073709551616) + (18446744073709551616 - b % 18446744073709551616)) %
    18446744073709551616

/-- The `while budget > 0 && k <= n` loop of `step_wise_probing`, written
with an explicit structural fuel (the loop runs at most `n` times because
`k` increases from `1` towards the bound `n`; the fuel `n + 1 - k` is
positive whenever the guard holds, so the fuel-exhausted branch coincides
with the guard-failed branch).  The statrs `binomial` is exact for the
sizes involved, so the `as usize` cast of its `f64` result is
`Nat.choose`. -/
def step_wise_probing_loop (hash_len : ℕ) (two_shifts : Bool) (n : ℕ) :
    ℕ → ℕ → ℕ → List (List Int)
  | 0, _, _ => []
  | fuel + 1, budget, k =>
    if 0 < budget ∧ k ≤ n then
      let multiply := if two_shifts then 2 else 1
      let n_combinations := Nat.choose n k * multiply
      let batch := ((step_wise_perturb n k two_shifts).take budget).map (perturb_vec hash_len)
      batch ++
        step_wise_probing_loop hash_len two_shifts n fuel (usize_wsub budget n_combinations)
          (k + 1)
    else []

/-- `step_wise_probing` (`multi_probe.rs` lines 147-179). -/
def step_wise_probing (hash_len budget : ℕ) (two_shifts : Bool) : List (List Int) :=
  step_wise_probing_loop hash_len two_shifts hash_len hash_len budget 1

/-- `SignRandomProjections::step_wise_probe` (`multi_probe.rs` lines 33-61):
for every perturbation vector, multiply the original code word by `-1` at
the positions carrying shift `1` (note: on the `{0,1}` encoding this maps
`1 ↦ -1` and leaves `0` unchanged). -/
def SignRandomProjections.step_wise_probe [LinearOrderedCommRing N]
    (s : SignRandomProjections N) (q : List N) (budget hash_len : ℕ) : Outcome (List Code) :=
  let probing_seq := step_wise_probing hash_len budget false
  match s.hash_vec_query q with
  | none => .fatal
  | some original_hash =>
      .ok (probing_seq.map (fun pertub =>
        List.zipWith (fun original shift => if shift = (1 : Int) then original * -1 else original)
          original_hash pertub))

/-- The `VecHash` dictionary of an SRP hasher (`hash_vec_put` defaults to
`hash_vec_query`; only the step-wise capability is present). -/
def SignRandomProjections.toHasherFns [LinearOrderedCommRing N]
    (s : SignRandomProjections N) : HasherFns N :=
  { hash_vec_query := s.hash_vec_query
    hash_vec_put := s.hash_vec_query
    as_query_directed_probe := none
    as_step_wise_probe := some s.step_wise_probe }

/-- `struct L2` (`hash.rs`): rows of the Gaussian matrix `a`, the width `r`
and the offset vector `b` are carried as explicit data. -/
structure L2 where
  a : List (List ℚ)
  r : ℚ
  b : List ℚ

/-- `L2::hash_and_cast_vec`: `⌊(a·v + b) * (1/r)⌋` per projection.  The cast
into the hash integer type always succeeds for `Int` (the source can panic
when the value does not fit a narrow `K`; that case is out of scope here
because `Int` embeds every `K`). -/
def L2.hash_and_cast_vec (l2 : L2) (v : List ℚ) : Option Code :=
  (mat_vec l2.a v).map (fun av =>
    (List.zipWith (· + ·) av l2.b).map (fun x => Int.floor (x * (1 / l2.r))))

/-- `VecHash::hash_vec_query` for L2. -/
def L2.hash_vec_query (l2 : L2) (v : List ℚ) : Option Code :=
  l2.hash_and_cast_vec v

/-- `L2::distance_to_bound` on the `Some(hash)` path used by
`query_directed_probe`: `ξ⁻ = (a·q + b) - hash·r` and `ξ⁺ = r - ξ⁻`. -/
def L2.distance_to_bound (l2 : L2) (q : List ℚ) (hash : Code) :
    Option (List ℚ × List ℚ) :=
  (mat_vec l2.a q).map (fun av =>
    let f := List.zipWith (· + ·) av l2.b
    let xi_min1 := List.zipWith (fun fi hi => fi - hi * l2.r) f
        (hash.map (fun (k : Int) => (k : ℚ)))
    let xi_plus1 := xi_min1.map (fun x => l2.r - x)
    (xi_min1, xi_plus1))

/-- Stable insertion into a list of `(index, distance)` pairs sorted by
distance. -/
def insertSorted (p : ℕ × ℚ) : List (ℕ × ℚ) → List (ℕ × ℚ)
  | [] => [p]
  | q :: rest => if q.2 < p.2 then q :: insertSorted p rest else p :: q :: rest

/-- Sort `(index, distance)` pairs by distance (insertion sort). -/
def sortPairs : List (ℕ × ℚ) → List (ℕ × ℚ)
  | [] => []
  | x :: xs => insertSorted x (sortPairs xs)

/-- The argsort of `query_directed_probe` (`z.sort_unstable_by` on the
distances; `sort_unstable_by` leaves the order of equal distances
unspecified, the embedding resolves ties by original position). -/
def argsort (distances : List ℚ) : List ℕ :=
  (sortPairs distances.enum).map (·.1)

/-- `struct PerturbState` (`multi_probe.rs` lines 181-271).  The source
wraps `original_hash` in an `Option` purely to move it out in `gen_hash`
(each popped state generates its hash exactly once); the embedding keeps the
hash directly. -/
structure PerturbState where
  z : List ℕ
  distances : List ℚ
  selection : List ℕ
  switchpoint : ℕ
  original_hash : Code

/-- `PerturbState::score`: sum of the selected distances (the source indexes
with `get_unchecked`; out-of-range access is undefined behaviour there and
defaulted to `0` here — unreachable for states built by the algorithm). -/
def PerturbState.score (s : PerturbState) : ℚ :=
  s.selection.foldl (fun acc index => acc + s.distances.getD (s.z.getD index 0) 0) 0

/-- `PerturbState::i_delta`: map each selected `z` value to `(index, δ)`. -/
def PerturbState.i_delta (s : PerturbState) : List (ℕ × Int) :=
  s.selection.map (fun idx =>
    let zj := s.z.getD idx 0
    if s.switchpoint ≤ zj then ((zj - s.switchpoint : ℕ), (1 : Int)) else (zj, -1))

/-- `PerturbState::check_bounds`: fail when `max` is the last `z` position,
otherwise push `max + 1` onto the selection. -/
def PerturbState.check_bounds (s : PerturbState) (max : ℕ) : Option PerturbState :=
  if max = s.z.length - 1 then none
  else some { s with selection := s.selection ++ [max + 1] }

/-- `PerturbState::shift`: pop the last selected index and re-push its
successor (`selection.pop().unwrap()` — the selection of every reachable
state is non-empty; the unreachable empty case is mapped to failure). -/
def PerturbState.shift (s : PerturbState) : Option PerturbState :=
  match s.selection.getLast? with
  | none => none
  | some max => PerturbState.check_bounds { s with selection := s.selection.dropLast } max

/-- `PerturbState::expand`: push the successor of the last selected index. -/
def PerturbState.expand (s : PerturbState) : Option PerturbState :=
  match s.selection.getLast? with
  | none => none
  | some max => s.check_bounds max

/-- `PerturbState::gen_hash`: apply the selected perturbations to the
original code word. -/
def PerturbState.gen_hash (s : PerturbState) : Code :=
  s.i_delta.foldl (fun hash p => updateAt hash p.1 (· + p.2)) s.original_hash

/-- `BinaryHeap::pop` through the reversed `Ord` of `PerturbState`: remove a
minimum-score state.  `BinaryHeap` leaves the choice among equal scores
unspecified; the embedding takes the first minimal element. -/
def heap_pop : List PerturbState → Option (PerturbState × List PerturbState)
  | [] => none
  | x :: xs =>
      match heap_pop xs with
      | none => some (x, [])
      | some (y, rest) => if y.score < x.score then some (y, x :: rest) else some (x, xs)

/-- The `for _ in 0..budget` loop of `query_directed_probe`: pop the
cheapest state, push its shift/expand successors when in bounds, emit its
hash; heap exhaustion is the depletion error. -/
def qdp_loop : ℕ → List PerturbState → List Code → Outcome (List Code)
  | 0, _, hashes => .ok hashes
  | fuel + 1, heap, hashes =>
      match heap_pop heap with
      | none => .err (.failed "All query directed probing combinations depleted")
      | some (ai, rest) =>
          let heap1 := match ai.shift with
            | some a_s => rest ++ [a_s]
            | none => rest
          let heap2 := match ai.expand with
            | some a_e => heap1 ++ [a_e]
            | none => heap1
          qdp_loop fuel heap2 (hashes ++ [ai.gen_hash])

/-- `query_directed_probe` for L2 (`multi_probe.rs` lines 329-373). -/
def L2.query_directed_probe (l2 : L2) (q : List ℚ) (budget : ℕ) : Outcome (List Code) :=
  match l2.hash_vec_query q with
  | none => .fatal
  | some hash =>
      match l2.distance_to_bound q hash with
      | none => .fatal
      | some p =>
          let xi_min := p.1
          let xi_plus := p.2
          let switchpoint := xi_min.length
          let distances := xi_min ++ xi_plus
          let z := argsort distances
          let a0 : PerturbState := ⟨z, distances, [0], switchpoint, hash⟩
          qdp_loop budget [a0] [hash]

/-- The `VecHash` dictionary of an L2 hasher (symmetric; only the
query-directed capability is present). -/
def L2.toHasherFns (l2 : L2) : HasherFns ℚ :=
  { hash_vec_query := l2.hash_vec_query
    hash_vec_put := l2.hash_vec_query
    as_query_directed_probe := some l2.query_directed_probe
    as_step_wise_probe := none }

/-- `struct MinHash` (`hash.rs`): the `K × dim` matrix of permutations of
`1…dim` is carried as explicit data (the input scalar type `N` is a
non-negative machine integer, embedded as `ℕ`). -/
structure MinHash where
  pi : List (List ℕ)
  n_projections : ℕ

/-- `MinHash::hash_vec_query` (`hash.rs` lines 284-302): elementwise product
of each permutation row with `v` (ndarray broadcasting requires `|v| = dim`,
which all uses below satisfy), then a fold that starts from
`K::from_usize(self.n_projections)` and keeps the smallest *positive*
product. -/
def MinHash.hash_vec_query (mh : MinHash) (v : List ℕ) : Code :=
  let a := mh.pi.map (fun row => List.zipWith (· * ·) row v)
  a.map (fun view =>
    view.foldl
      (fun (acc : Int) (p : ℕ) =>
        if 0 < p then (if (p : Int) < acc then (p : Int) else acc) else acc)
      (mh.n_projections : Int))

/-- Definition following the words of the spec and of claim C6: element `i`
is the minimum nonzero value of the elementwise product of permutation row
`i` with `v`, or the sentinel `dim` when all those products are zero.  Used
only to compare against the source embedding `MinHash.hash_vec_query`. -/
def minhash_spec_codeword (pi : List (List ℕ)) (dim : ℕ) (v : List ℕ) : Code :=
  pi.map (fun row =>
    match (List.zipWith (· * ·) row v).filter (fun p => 0 < p) with
    | [] => (dim : Int)
    | x :: xs => ((xs.foldl Nat.min x : ℕ) : Int))

/-- `struct MIPS` (`hash.rs`): parameters `U`, fitted maximum norm `M`,
extra dimensions `m`, data dimension `dim`, and the wrapped L2 hasher of
dimension `dim + m`. -/
structure MIPS where
  U : ℚ
  M : ℚ
  m : ℕ
  dim : ℕ
  hasher : L2

/-- `dist::l2_norm`: `x.dot(&x).sqrt()`.  The floating square root is
abstracted by the `sqrt` parameter (the theorems about MIPS assume only that
`sqrt` maps positives to positives, as `f32::sqrt` does). -/
def l2_norm (sqrt : ℚ → ℚ) (x : List ℚ) : ℚ := sqrt (dot_prod x x)

/-- `MIPS::fit` (`hash.rs` lines 163-173): `M := max` of the L2 norms of
the fitted data set, starting from `0`. -/
def MIPS.fit (sqrt : ℚ → ℚ) (mips : MIPS) (v : List (List ℚ)) : MIPS :=
  { mips with
      M := v.foldl (fun max_l2 x => let l2 := l2_norm sqrt x;
            if max_l2 < l2 then l2 else max_l2) 0 }

/-- `MIPS::tranform_put` (`hash.rs` lines 175-192, source spelling kept):
`panic!("MIPS is not fitted")` when `M = 0`; otherwise scale by `U / M` and
append `m` powers of the squared norm. -/
def MIPS.tranform_put (sqrt : ℚ → ℚ) (mips : MIPS) (x : List ℚ) : Outcome (List ℚ) :=
  if mips.M = 0 then .fatal
  else
    let x_new := x.map (fun x_i => x_i / mips.M * mips.U)
    let norm_sq := (l2_norm sqrt x_new) ^ 2
    .ok (x_new ++ (List.range mips.m).map (fun i => norm_sq ^ (i + 1)))

/-- `MIPS::transform_query`: normalise to unit norm and append `m` halves
(over `ℚ` the division of the all-zero query by its zero norm yields zeros;
over `f32` it yields NaNs — neither panics, and `M` is never read). -/
def MIPS.transform_query (sqrt : ℚ → ℚ) (mips : MIPS) (x : List ℚ) : List ℚ :=
  let l2 := l2_norm sqrt x
  (x.map (fun x_i => x_i / l2)) ++ List.replicate mips.m (1 / 2 : ℚ)

/-- `VecHash::hash_vec_query` for MIPS: query transform, then the wrapped L2. -/
def MIPS.hash_vec_query (sqrt : ℚ → ℚ) (mips : MIPS) (v : List ℚ) : Option Code :=
  mips.hasher.hash_vec_query (mips.transform_query sqrt v)

/-- `VecHash::hash_vec_put` for MIPS: put transform (may panic when not
fitted), then the wrapped L2 (which panics on a dimension mismatch). -/
def MIPS.hash_vec_put (sqrt : ℚ → ℚ) (mips : MIPS) (v : List ℚ) : Outcome Code :=
  match mips.tranform_put sqrt v with
  | .ok p =>
      match mips.hasher.hash_vec_query p with
      | some h => .ok h
      | none => .fatal
  | .err er => .err er
  | .fatal => .fatal

/-- `query_directed_probe` for MIPS (`impl_query_directed_probe!(MIPS)`,
`multi_probe.rs` line 378).  The macro body reads `self.hash_vec_query(q)`
(the `VecHash` impl of MIPS, i.e. query-transform then the wrapped L2) but
then `self.distance_to_bound(q, Some(&hash))`, whose `self.a`, `self.b` and
`self.r` resolve through MIPS's `Deref` to the wrapped L2 hasher of
dimension `dim + m` — while `q` is the *raw* query of length `dim`.  The
inner dot product therefore has mismatched shapes whenever `m ≥ 1` and
panics (modelled by `distance_to_bound` returning `none` → `.fatal`). -/
def MIPS.query_directed_probe (sqrt : ℚ → ℚ) (mips : MIPS) (q : List ℚ) (budget : ℕ) :
    Outcome (List Code) :=
  match MIPS.hash_vec_query sqrt mips q with
  | none => .fatal
  | some hash =>
      match mips.hasher.distance_to_bound q hash with
      | none => .fatal
      | some p =>
          let xi_min := p.1
          let xi_plus := p.2
          let switchpoint := xi_min.length
          let distances := xi_min ++ xi_plus
          let z := argsort distances
          let a0 : PerturbState := ⟨z, distances, [0], switchpoint, hash⟩
          qdp_loop budget [a0] [hash]

/-! Concrete instances used by counterexamples and witnesses. -/

/-- The shape-mismatch error produced by `LSH::validate_vec`. -/
def dim_err : Err := .failed "data point is not valid, are the dimensions correct?"

/-- Projection of a `store_vec` result onto its decidable components (the
engine record carries function-valued hashers, so results are compared
through the backend table and the returned id). -/
def storeResultTable (r : Outcome (LSH N × ℕ)) : Option (MemoryTable N × ℕ) :=
  match r with
  | .ok (e, i) => some (e.hash_tables, i)
  | _ => none

/-- Projection of a `store_vecs` result onto its decidable components. -/
def storeVecsResultTable (r : Outcome (LSH N × List ℕ)) : Option (MemoryTable N × List ℕ) :=
  match r with
  | .ok (e, i) => some (e.hash_tables, i)
  | _ => none

/-- A one-projection, one-dimension SRP hasher over the integer scalar
(`N = i64` in the source's generics) whose single hyperplane is `[1]`:
vectors with positive first coordinate hash to `[1]`, others to `[0]`. -/
def srp1 : SignRandomProjections ℤ := ⟨[[1]]⟩

/-- A fresh in-memory SRP index with `L` tables over `srp1`, dimension 1. -/
def srpEngine (L : ℕ) (mp : Bool) (budget : ℕ) : LSH ℤ :=
  { n_hash_tables := L
    n_projections := 1
    hashers := List.replicate L srp1.toHasherFns
    dim := 1
    hash_tables :=
      { hash_tables := List.replicate L []
        n_hash_tables := L
        vec_store := []
        only_index_storage := false
        counter := 0 }
    only_index_storage := false
    multi_probe := mp
    multi_probe_budget := budget }

/-- The backend state reached from the fresh one-table `srpEngine` after
`store_vec([1])`: id `0` sits in the bucket of code `[1]`, the vector is
stored, and (the `L = 1` quirk) the counter is still `0`. -/
def srpTable1 : MemoryTable ℤ := ⟨[[([1], {0})]], 1, [[1]], false, 0⟩

/-- The one-table SRP engine holding `srpTable1`. -/
def srpStored (mp : Bool) (budget : ℕ) : LSH ℤ :=
  { srpEngine 1 mp budget with hash_tables := srpTable1 }

/-- Backend state after a second `store_vec([1])` on `srpStored`: the same
bucket (id `0` is re-inserted), a second copy of the vector, counter `0`. -/
def c2Table2 : MemoryTable ℤ := ⟨[[([1], {0})]], 1, [[1], [1]], false, 0⟩

/-- The two-table SRP engine after `store_vecs([[1], [2]])`: table `0` holds
only id `0` (both vectors were inserted under the stale counter), table `1`
holds ids `0` and `1`. -/
def c3Table : MemoryTable ℤ := ⟨[[([1], {0})], [([1], {1, 0})]], 2, [[1], [2]], false, 2⟩

/-- A one-projection, one-dimension L2 hasher: `a = [[1]]`, `r = 1`, `b = [0]`. -/
def l2a : L2 := ⟨[[1]], 1, [0]⟩

/-- An empty one-table backend. -/
def emptyTable1 : MemoryTable ℚ := ⟨[[]], 1, [], false, 0⟩

/-- An in-memory engine over a list of L2 hashers (the `lsh_from_lsh`
construction specialised to `MemoryTable`). -/
def l2LSH (ls : List L2) (t : MemoryTable ℚ) (dim np : ℕ) (mp : Bool) (budget : ℕ) : LSH ℚ :=
  { n_hash_tables := ls.length
    n_projections := np
    hashers := ls.map L2.toHasherFns
    dim := dim
    hash_tables := t
    only_index_storage := t.only_index_storage
    multi_probe := mp
    multi_probe_budget := budget }

/-- The one-table L2 engine over `l2a` with an empty backend. -/
def l2Eng : LSH ℚ := l2LSH [l2a] emptyTable1 1 1 false 0

/-- A `K = 1`, `dim = 2` MinHash hasher whose single permutation row is
`[1, 2]` (a permutation of `1…2`); note `n_projections = 1 ≠ dim = 2`. -/
def minhash12 : MinHash := ⟨[[1, 2]], 1⟩

/-- An unfitted MIPS hasher: `U = 1/2`, `M = 0`, `m = 1`, `dim = 1`, wrapped
L2 of dimension `dim + m = 2`. -/
def mips0 : MIPS := ⟨1 / 2, 0, 1, 1, ⟨[[1, 1]], 1, [0]⟩⟩

/-! Helper lemmas about the list machinery of the embedding. -/

theorem updateAt_length (l : List α) (i : ℕ) (f : α → α) :
    (updateAt l i f).length = l.length := by
  induction l generalizing i with
  | nil => rfl
  | cons x xs ih =>
      cases i with
      | zero => rfl
      | succ n => simpa [updateAt] using ih n

theorem updateAt_getD_self (l : List α) (i : ℕ) (f : α → α) (d : α) (h : i < l.length) :
    (updateAt l i f).getD i d = f (l.getD i d) := by
  induction l generalizing i with
  | nil => simp at h
  | cons x xs ih =>
      cases i with
      | zero => rfl
      | succ n =>
          simp only [updateAt, List.getD_cons_succ]
          exact ih n (by simpa using h)

theorem updateAt_getD_ne (l : List α) (i : ℕ) (f : α → α) (d : α) (j : ℕ) (h : j ≠ i) :
    (updateAt l i f).getD j d = l.getD j d := by
  induction l generalizing i j with
  | nil => rfl
  | cons x xs ih =>
      cases i with
      | zero =>
          cases j with
          | zero => exact absurd rfl h
          | succ m => rfl
      | succ n =>
          cases j with
          | zero => rfl
          | succ m =>
              simp only [updateAt, List.getD_cons_succ]
              exact ih n m (fun hc => h (by omega))

theorem tblGet_tblInsert_self (tbl : CodeMap) (hash : Code) (idx : ℕ) :
    tblGet (tblInsert tbl hash idx) hash = some (insert idx ((tblGet tbl hash).getD ∅)) := by
  induction tbl with
  | nil => simp [tblGet, tblInsert]
  | cons kb rest ih =>
      by_cases h : kb.1 = hash
      · simp [tblGet, tblInsert, h]
      · simpa [tblGet, tblInsert, h] using ih

theorem mem_tblGet_tblInsert (tbl : CodeMap) (hash : Code) (idx : ℕ) (h' : Code) (j : ℕ)
    (hj : j ∈ (tblGet tbl h').getD ∅) :
    j ∈ (tblGet (tblInsert tbl hash idx) h').getD ∅ := by
  induction tbl with
  | nil =>
      simp [tblGet] at hj
  | cons kb rest ih =>
      by_cases h1 : kb.1 = hash
      · by_cases h2 : kb.1 = h'
        · simp only [tblGet, tblInsert, if_pos h1, if_pos h2, Option.getD_some] at hj ⊢
          exact Finset.mem_insert_of_mem hj
        · simp only [tblGet, tblInsert, if_pos h1, if_neg h2] at hj ⊢
          exact hj
      · by_cases h2 : kb.1 = h'
        · simp only [tblGet, tblInsert, if_pos h2, if_neg h1] at hj ⊢
          exact hj
        · simp only [tblGet, tblInsert, if_neg h1, if_neg h2] at hj ⊢
          exact ih hj

theorem mem_enumFrom_snd {l : List α} {p : ℕ × α} :
    ∀ {j : ℕ}, p ∈ List.enumFrom j l → p.2 ∈ l := by
  induction l with
  | nil => intro j h; simp [List.enumFrom] at h
  | cons x xs ih =>
      intro j h
      rcases (List.mem_cons).1 h with h1 | h1
      · subst h1; exact List.mem_cons_self _ _
      · exact List.mem_cons_of_mem _ (ih h1)

theorem mem_enum_snd {l : List α} {p : ℕ × α} (h : p ∈ l.enum) : p.2 ∈ l :=
  mem_enumFrom_snd h

theorem mem_enumFrom_lt {l : List α} {p : ℕ × α} :
    ∀ {j : ℕ}, p ∈ List.enumFrom j l → p.1 < j + l.length := by
  induction l with
  | nil => intro j h; simp [List.enumFrom] at h
  | cons x xs ih =>
      intro j h
      rcases (List.mem_cons).1 h with h1 | h1
      · subst h1; simp
      · have := ih h1
        simp only [List.length_cons]
        omega

theorem mem_enum_lt {l : List α} {p : ℕ × α} (h : p ∈ l.enum) : p.1 < l.length := by
  simpa using mem_enumFrom_lt (l := l) (j := 0) h

theorem enumFrom_get? (l : List α) :
    ∀ (j k : ℕ), (List.enumFrom j l).get? k = (l.get? k).map (fun a => (j + k, a)) := by
  induction l with
  | nil => intro j k; simp
  | cons x xs ih =>
      intro j k
      cases k with
      | zero => simp [List.enumFrom]
      | succ n =>
          simp only [List.enumFrom, List.get?_cons_succ]
          rw [ih (j + 1) n]
          cases xs.get? n <;> simp [Nat.add_assoc, Nat.add_comm 1 n]

theorem enum_get? (l : List α) (k : ℕ) :
    l.enum.get? k = (l.get? k).map (fun a => (k, a)) := by
  simp [List.enum, enumFrom_get? l 0 k]

theorem enum_mem_zero {l : List α} {x : α} (h : l.get? 0 = some x) : (0, x) ∈ l.enum := by
  apply List.get?_mem
  rw [enum_get? l 0, h]
  rfl

/-! Lemmas about `MemoryTable.put` and the bucket view `bucketAt`. -/

theorem put_snd (m : MemoryTable N) (hash : Code) (d : List N) (t : ℕ) :
    (m.put hash d t).2 = m.counter := rfl

theorem put_hash_tables (m : MemoryTable N) (hash : Code) (d : List N) (t : ℕ) :
    (m.put hash d t).1.hash_tables = (m.insert_idx m.counter hash t).hash_tables := by
  unfold MemoryTable.put
  dsimp only
  split
  · rfl
  · split <;> rfl

theorem put_n_hash_tables (m : MemoryTable N) (hash : Code) (d : List N) (t : ℕ) :
    (m.put hash d t).1.n_hash_tables = m.n_hash_tables := by
  unfold MemoryTable.put
  dsimp only
  split
  · rfl
  · split <;> rfl

theorem put_only_index (m : MemoryTable N) (hash : Code) (d : List N) (t : ℕ) :
    (m.put hash d t).1.only_index_storage = m.only_index_storage := by
  unfold MemoryTable.put
  dsimp only
  split
  · rfl
  · split <;> rfl

theorem put_tables_length (m : MemoryTable N) (hash : Code) (d : List N) (t : ℕ) :
    (m.put hash d t).1.hash_tables.length = m.hash_tables.length := by
  rw [put_hash_tables]
  simpa [MemoryTable.insert_idx] using updateAt_length m.hash_tables t _

theorem put_counter_of_lt (m : MemoryTable N) (hash : Code) (d : List N) (t : ℕ)
    (h : t + 1 < m.n_hash_tables) :
    (m.put hash d t).1.counter = m.counter := by
  unfold MemoryTable.put
  dsimp only
  split
  · rfl
  · split
    · next hne heq =>
        exfalso
        have heq' : t = m.n_hash_tables - 1 := by
          simpa [MemoryTable.insert_idx] using heq
        omega
    · rfl

theorem bucketAt_insert_idx_self (m : MemoryTable N) (idx : ℕ) (hash : Code) (t : ℕ)
    (h : t < m.hash_tables.length) :
    bucketAt (m.insert_idx idx hash t) t hash = insert idx (bucketAt m t hash) := by
  unfold bucketAt MemoryTable.insert_idx
  dsimp only
  rw [updateAt_getD_self m.hash_tables t _ [] h, tblGet_tblInsert_self]
  rfl

theorem mem_bucketAt_insert_idx (m : MemoryTable N) (idx : ℕ) (hash : Code) (t : ℕ)
    (t' : ℕ) (h' : Code) (j : ℕ) (hj : j ∈ bucketAt m t' h') :
    j ∈ bucketAt (m.insert_idx idx hash t) t' h' := by
  unfold bucketAt MemoryTable.insert_idx at *
  dsimp only at *
  by_cases ht : t' = t
  · subst ht
    by_cases hl : t' < m.hash_tables.length
    · rw [updateAt_getD_self m.hash_tables t' _ [] hl]
      exact mem_tblGet_tblInsert _ hash idx h' j hj
    · have : m.hash_tables.getD t' [] = [] := by
        apply List.getD_eq_default
        omega
      rw [this] at hj
      simp [tblGet] at hj
  · rw [updateAt_getD_ne m.hash_tables t _ [] t' ht]
    exact hj

theorem put_mem_self (m : MemoryTable N) (hash : Code) (d : List N) (t : ℕ)
    (h : t < m.hash_tables.length) :
    m.counter ∈ bucketAt (m.put hash d t).1 t hash := by
  have hb : bucketAt (m.put hash d t).1 t hash = insert m.counter (bucketAt m t hash) := by
    unfold bucketAt
    rw [put_hash_tables]
    exact bucketAt_insert_idx_self m m.counter hash t h
  rw [hb]
  exact Finset.mem_insert_self _ _

theorem put_mem_mono (m : MemoryTable N) (hash : Code) (d : List N) (t : ℕ)
    (t' : ℕ) (h' : Code) (j : ℕ) (hj : j ∈ bucketAt m t' h') :
    j ∈ bucketAt (m.put hash d t).1 t' h' := by
  have hb : bucketAt (m.put hash d t).1 t' h' = bucketAt (m.insert_idx m.counter hash t) t' h' := by
    unfold bucketAt
    rw [put_hash_tables]
  rw [hb]
  exact mem_bucketAt_insert_idx m m.counter hash t t' h' j hj

/-- Specification of the `store_vec` loop: when every hasher succeeds, every
listed table index is in range, and only the final element may address the
last hash table, the loop succeeds, returns the initial counter as the id,
only grows buckets, and deposits the initial counter into the bucket of each
listed table's put-codeword. -/
theorem store_vec_loop_spec (v : List N) :
    ∀ (l : List (ℕ × HasherFns N)) (m : MemoryTable N) (idx0 : ℕ),
    (∀ p ∈ l, (p.2.hash_vec_put v).isSome = true) →
    (∀ p ∈ l, p.1 < m.hash_tables.length) →
    (∀ k p, l.get? k = some p → k + 1 < l.length → p.1 + 1 < m.n_hash_tables) →
    ∃ m', store_vec_loop v l m idx0 = .ok (m', if l.length = 0 then idx0 else m.counter)
      ∧ m'.hash_tables.length = m.hash_tables.length
      ∧ (∀ t h j, j ∈ bucketAt m t h → j ∈ bucketAt m' t h)
      ∧ (∀ p ∈ l, ∀ code, p.2.hash_vec_put v = some code → m.counter ∈ bucketAt m' p.1 code) := by
  intro l
  induction l with
  | nil =>
      intro m idx0 _ _ _
      exact ⟨m, by simp [store_vec_loop], rfl, fun t h j hj => hj, by simp⟩
  | cons q rest ih =>
      intro m idx0 hsucc hidx hlast
      obtain ⟨i, hq⟩ := q
      obtain ⟨code, hcode0⟩ :=
        Option.isSome_iff_exists.1 (hsucc (i, hq) (List.mem_cons_self _ _))
      have hcode : hq.hash_vec_put v = some code := hcode0
      have hstep : store_vec_loop v ((i, hq) :: rest) m idx0 =
          store_vec_loop v rest (m.put code v i).1 m.counter := by
        simp [store_vec_loop, hcode, put_snd]
      have hi : i < m.hash_tables.length := hidx (i, hq) (List.mem_cons_self _ _)
      by_cases hrest : rest = []
      · subst hrest
        refine ⟨(m.put code v i).1, ?_, put_tables_length m code v i, ?_, ?_⟩
        · rw [hstep]
          simp [store_vec_loop]
        · intro t h j hj
          exact put_mem_mono m code v i t h j hj
        · intro p hp code' hcode'
          rcases List.mem_singleton.1 hp with rfl
          have hcc : code' = code := by
            have hcode'' : hq.hash_vec_put v = some code' := hcode'
            rw [hcode] at hcode''
            exact (Option.some_inj.1 hcode'').symm
          rw [hcc]
          exact put_mem_self m code v i hi
      · have hlen1 : 1 < ((i, hq) :: rest).length := by
          cases rest with
          | nil => exact absurd rfl hrest
          | cons a as => simp
        have hi1 : i + 1 < m.n_hash_tables := hlast 0 (i, hq) rfl hlen1
        have hc : (m.put code v i).1.counter = m.counter := put_counter_of_lt m code v i hi1
        have hn : (m.put code v i).1.n_hash_tables = m.n_hash_tables := put_n_hash_tables m code v i
        have hl : (m.put code v i).1.hash_tables.length = m.hash_tables.length :=
          put_tables_length m code v i
        obtain ⟨m'', hrun, hlen'', hmono'', hmem''⟩ :=
          ih (m.put code v i).1 m.counter
            (fun p hp => hsucc p (List.mem_cons_of_mem _ hp))
            (fun p hp => by rw [hl]; exact hidx p (List.mem_cons_of_mem _ hp))
            (fun k p hk hklen => by
              rw [hn]
              refine hlast (k + 1) p ?_ ?_
              · simpa using hk
              · simpa using Nat.succ_lt_succ hklen)
        refine ⟨m'', ?_, by rw [hlen'', hl], ?_, ?_⟩
        · have hrl : rest.length ≠ 0 := fun h0 => hrest (List.length_eq_zero.1 h0)
          rw [hstep, hrun]
          simp [hrl, hc]
        · intro t h j hj
          exact hmono'' t h j (put_mem_mono m code v i t h j hj)
        · intro p hp code' hcode'
          rcases List.mem_cons.1 hp with rfl | hp'
          · have hcc : code' = code := by
              have hcode'' : hq.hash_vec_put v = some code' := hcode'
              rw [hcode] at hcode''
              exact (Option.some_inj.1 hcode'').symm
            rw [hcc]
            exact hmono'' i code m.counter (put_mem_self m code v i hi)
          · have hmem1 := hmem'' p hp' code' hcode'
            rw [hc] at hmem1
            exact hmem1

/-- `process_bucket_union_result` on an in-range table always succeeds and
only grows the accumulated union by (at least) the addressed bucket. -/
theorem process_bucket_superset (m : MemoryTable N) (hash : Code) (i : ℕ) (acc : Bucket)
    (hlen : i < m.hash_tables.length) :
    ∃ s, process_bucket_union_result m hash i acc = .ok s ∧ acc ⊆ s ∧ bucketAt m i hash ⊆ s := by
  unfold process_bucket_union_result MemoryTable.query_bucket
  rw [if_pos hlen]
  cases htg : tblGet (m.hash_tables.getD i []) hash with
  | none =>
      refine ⟨acc, rfl, Finset.Subset.refl acc, ?_⟩
      unfold bucketAt
      rw [htg]
      simp
  | some b =>
      refine ⟨acc ∪ b, rfl, Finset.subset_union_left, ?_⟩
      unfold bucketAt
      rw [htg]
      exact Finset.subset_union_right

/-- Specification of the single-probe query loop: when every hasher
succeeds and every listed table index is in range, the loop succeeds with a
union that contains the accumulator and the bucket of every listed table's
query-codeword. -/
theorem query_union_loop_spec (v : List N) :
    ∀ (l : List (ℕ × HasherFns N)) (m : MemoryTable N) (acc : Bucket),
    (∀ p ∈ l, (p.2.hash_vec_query v).isSome = true) →
    (∀ p ∈ l, p.1 < m.hash_tables.length) →
    ∃ s, query_union_loop v m l acc = .ok s ∧ acc ⊆ s
      ∧ ∀ p ∈ l, ∀ code, p.2.hash_vec_query v = some code → bucketAt m p.1 code ⊆ s := by
  intro l
  induction l with
  | nil =>
      intro m acc _ _
      exact ⟨acc, by simp [query_union_loop], Finset.Subset.refl acc, by simp⟩
  | cons q rest ih =>
      intro m acc hsucc hidx
      obtain ⟨i, hq⟩ := q
      obtain ⟨code, hcode0⟩ :=
        Option.isSome_iff_exists.1 (hsucc (i, hq) (List.mem_cons_self _ _))
      have hcode : hq.hash_vec_query v = some code := hcode0
      have hi : i < m.hash_tables.length := hidx (i, hq) (List.mem_cons_self _ _)
      obtain ⟨a2, hproc, hacc2, hbucket2⟩ := process_bucket_superset m code i acc hi
      obtain ⟨s, hrun, hsub, hmem⟩ :=
        ih m a2 (fun p hp => hsucc p (List.mem_cons_of_mem _ hp))
          (fun p hp => hidx p (List.mem_cons_of_mem _ hp))
      refine ⟨s, ?_, Finset.Subset.trans hacc2 hsub, ?_⟩
      · simp [query_union_loop, hcode, hproc, hrun]
      · intro p hp code' hcode'
        rcases List.mem_cons.1 hp with rfl | hp'
        · have hcc : code' = code := by
            have hcode'' : hq.hash_vec_query v = some code' := hcode'
            rw [hcode] at hcode''
            exact (Option.some_inj.1 hcode'').symm
          rw [hcc]
          exact Finset.Subset.trans hbucket2 hsub
        · exact hmem p hp' code' hcode'

/-! Claim theorems: self-retrieval, counter and bulk-insert behaviour,
SRP probing, MinHash code words, backend update atomicity. -/

/-- C1, counterexample.  With multi-probing enabled (SRP, budget 1, one
table), `store_vec([1])` succeeds with id `0`, but the subsequent
`query_bucket_ids([1])` succeeds with the *empty* id set: the step-wise
probe sequence never visits the original bucket (the single probe is the
code `[-1]`, which no stored vector can produce).  This refutes the claim
for "any multi-probe setting". -/
theorem c1_counterexample :
    storeResultTable ((srpEngine 1 true 1).store_vec [1]) = some (srpTable1, 0)
    ∧ (srpStored true 1).query_bucket_ids [1] = .ok (∅ : Finset ℕ)
    ∧ ¬ (0 ∈ (∅ : Finset ℕ)) := by
  decide

/-- C1, amended.  For a memory-backed index whose configuration is
consistent (`L = |hashers| ≥ 1`, per-table maps allocated), whose hashers
are *symmetric at `v`* (`hash_vec_put(v) = hash_vec_query(v)`, true for
SRP/L2/MinHash but not MIPS) and defined at `v`, and with multi-probing
disabled, `store_vec(v)` succeeds with some id and `query_bucket_ids(v)`
succeeds with a set containing that id. -/
theorem c1_self_retrieval_amended (e : LSH N) (v : List N)
    (h1 : e.multi_probe = false)
    (h2 : e.hashers ≠ [])
    (h3 : e.hash_tables.n_hash_tables = e.hashers.length)
    (h6 : e.hash_tables.hash_tables.length = e.hashers.length)
    (h4 : ∀ h ∈ e.hashers, h.hash_vec_put v = h.hash_vec_query v)
    (hsucc : ∀ h ∈ e.hashers, (h.hash_vec_put v).isSome = true)
    (hdim : v.length = e.dim) :
    ∃ e' idx s, e.store_vec v = .ok (e', idx) ∧ e'.query_bucket_ids v = .ok s ∧ idx ∈ s := by
  have hval : e.validate_vec v = .ok () := by
    simp [LSH.validate_vec, hdim]
  have hlenum : e.hashers.enum.length = e.hashers.length := List.enum_length
  have hget : ∀ k (p : ℕ × HasherFns N), e.hashers.enum.get? k = some p → p.1 = k := by
    intro k p hk
    rw [enum_get? e.hashers k] at hk
    cases hg : e.hashers.get? k with
    | none => rw [hg] at hk; simp at hk
    | some a =>
        rw [hg] at hk
        simp only [Option.map_some'] at hk
        rw [← Option.some_inj.1 hk]
  obtain ⟨m', hrun, hlen', hmono', hmem'⟩ :=
    store_vec_loop_spec v e.hashers.enum e.hash_tables 0
      (fun p hp => hsucc p.2 (mem_enum_snd hp))
      (fun p hp => by rw [h6]; exact mem_enum_lt hp)
      (fun k p hk hklen => by
        rw [h3]
        have hpk := hget k p hk
        rw [hpk]
        rw [hlenum] at hklen
        exact hklen)
  have hne : e.hashers.enum.length ≠ 0 := by
    rw [hlenum]
    intro h0
    exact h2 (List.length_eq_zero.1 h0)
  rw [if_neg hne] at hrun
  have hstore : e.store_vec v = .ok ({ e with hash_tables := m' }, e.hash_tables.counter) := by
    unfold LSH.store_vec
    rw [hval, hrun]
  obtain ⟨s, hq, _, hbuckets⟩ :=
    query_union_loop_spec v e.hashers.enum m' ∅
      (fun p hp => by
        rw [← h4 p.2 (mem_enum_snd hp)]
        exact hsucc p.2 (mem_enum_snd hp))
      (fun p hp => by
        rw [hlen', h6]
        exact mem_enum_lt hp)
  have hquery : ({ e with hash_tables := m' } : LSH N).query_bucket_ids v = .ok s := by
    unfold LSH.query_bucket_ids LSH.query_bucket_union
    rw [show ({ e with hash_tables := m' } : LSH N).validate_vec v = .ok () from hval]
    simp only [h1, if_false, Bool.false_eq_true]
    exact hq
  refine ⟨{ e with hash_tables := m' }, e.hash_tables.counter, s, hstore, hquery, ?_⟩
  obtain ⟨h0, hs0, hcons⟩ : ∃ h0 hs0, e.hashers = h0 :: hs0 := by
    cases hhh : e.hashers with
    | nil => exact absurd hhh h2
    | cons a as => exact ⟨a, as, rfl⟩
  have hg0 : e.hashers.get? 0 = some h0 := by rw [hcons]; rfl
  have hp0 : ((0 : ℕ), h0) ∈ e.hashers.enum := enum_mem_zero hg0
  obtain ⟨code0, hcode0⟩ :=
    Option.isSome_iff_exists.1 (hsucc h0 (by rw [hcons]; exact List.mem_cons_self _ _))
  have hcmem : e.hash_tables.counter ∈ bucketAt m' 0 code0 := hmem' (0, h0) hp0 code0 hcode0
  have hq0 : h0.hash_vec_query v = some code0 := by
    rw [← h4 h0 (by rw [hcons]; exact List.mem_cons_self _ _)]
    exact hcode0
  exact hbuckets (0, h0) hp0 code0 hq0 hcmem

/-- C2: with `L = 1` and `only_index = false`, `MemoryTable::put` never
reaches the `else if hash_table == n_hash_tables - 1` branch (table 0 is
both the first and the last table), so the id counter is never incremented:
two consecutive `store_vec([1])` calls both return id `0`, the counter
stays `0`, and the vector store grows to length `2 ≠ 0`.  This contradicts
the source's own comment ("increment the counter (the id) after we've
update the last (N) hash_table") and the claim. -/
theorem c2_counter_stuck_at_L1 :
    storeResultTable ((srpEngine 1 false 16).store_vec [1]) = some (srpTable1, 0)
    ∧ storeResultTable ((srpStored false 16).store_vec [1]) = some (c2Table2, 0)
    ∧ c2Table2.counter = 0
    ∧ c2Table2.vec_store.length = 2 := by
  decide

/-- C3: `store_vecs` iterates hash tables in the outer loop, but
`MemoryTable::put` advances the counter only on the last table, so during
the table-0 pass every vector is assigned the stale counter value: with
`L = 2` and fresh counter `0`, `store_vecs([[1],[2]])` returns `[0, 0]`
(not `[0, 1]`), table 0 holds both vectors under id `0`, and only table 1
holds the ids `{0, 1}`. -/
theorem c3_store_vecs_duplicate_ids :
    storeVecsResultTable ((srpEngine 2 false 16).store_vecs [[1], [2]]) = some (c3Table, [0, 0])
    ∧ bucketAt c3Table 0 [1] = {0}
    ∧ bucketAt c3Table 1 [1] = {1, 0}
    ∧ ([0, 0] : List ℕ) ≠ [0, 1] := by
  decide

/-- C5: SRP codes are `{0,1}`-valued (`hash_vec_query([1]) = [1]`), but
`step_wise_probe` "flips" a selected bit by multiplying it by `-1`: probing
`[1]` with budget 1 produces the code `[-1]`, not the flipped `{0,1}` code
`[0]` the claim (and spec) describe — `1 ↦ -1` leaves the `{0,1}` alphabet
and a selected `0` bit would stay `0`, so the polarity implementation is
not semantically equivalent to a bit flip. -/
theorem c5_srp_probe_polarity_bug :
    srp1.hash_vec_query [1] = some [1]
    ∧ srp1.step_wise_probe [1] 1 1 = .ok [[-1]]
    ∧ ([[-1]] : List Code) ≠ [[0]] := by
  decide

/-- C6, counterexample.  For the MinHash hasher with a single permutation
row `[1, 2]` over `dim = 2` (so `K = n_projections = 1`) and input
`[0, 1]`, the row of products is `[0, 2]` with minimum nonzero value `2`;
the claim demands code word `[2]` (and sentinel `dim = 2` for all-zero
rows), but the source folds starting from `n_projections = 1` and returns
`[1]`. -/
theorem c6_counterexample :
    minhash12.hash_vec_query [0, 1] = [1]
    ∧ minhash_spec_codeword minhash12.pi 2 [0, 1] = [2]
    ∧ ¬ minhash12.hash_vec_query [0, 1] = minhash_spec_codeword minhash12.pi 2 [0, 1] := by
  decide

/-- Folding "keep the smallest positive product" equals folding `min` over
the positive products. -/
theorem minhash_fold_min (l : List ℕ) :
    ∀ acc : Int,
    l.foldl
        (fun (acc : Int) (p : ℕ) =>
          if 0 < p then (if (p : Int) < acc then (p : Int) else acc) else acc) acc
      = (l.filter (fun p => 0 < p)).foldl (fun (acc : Int) (p : ℕ) => min acc (p : Int)) acc := by
  induction l with
  | nil => intro acc; rfl
  | cons x xs ih =>
      intro acc
      by_cases hx : 0 < x
      · have hmin : (if (x : Int) < acc then (x : Int) else acc) = min acc (x : Int) := by
          rcases lt_or_le (x : Int) acc with hlt | hle
          · rw [if_pos hlt, min_eq_right (le_of_lt hlt)]
          · rw [if_neg (not_lt.2 hle), min_eq_left hle]
        simp only [List.foldl_cons, List.filter_cons, hx, if_pos, decide_True]
        rw [ih, hmin]
      · simp [List.filter_cons, hx]
        rw [ih]

/-- C6, amended.  Element `i` of the MinHash code word is the minimum of
the initial value `n_projections` (the codeword length `K` cast into the
hash type — not `dim`) and all nonzero elementwise products of permutation
row `i` with `v`; in particular a row whose products are all zero emits the
sentinel `n_projections`. -/
theorem c6_minhash_codeword_amended (mh : MinHash) (v : List ℕ) :
    mh.hash_vec_query v = mh.pi.map (fun row =>
      ((List.zipWith (· * ·) row v).filter (fun p => 0 < p)).foldl
        (fun (acc : Int) (p : ℕ) => min acc (p : Int)) (mh.n_projections : Int)) := by
  unfold MinHash.hash_vec_query
  rw [List.map_map]
  apply List.map_congr_left
  intro row _
  exact minhash_fold_min (List.zipWith (· * ·) row v) (mh.n_projections : Int)

/-- C10: when `old` has no bucket in table `t`, `MemoryTable::update_by_idx`
fails with `NotFound` before touching anything: the whole backend state is
returned unchanged, so `id` is in particular not inserted into `new`'s
bucket. -/
theorem c10_update_by_idx_not_found (m : MemoryTable N) (old_hash new_hash : Code)
    (idx t : ℕ) (hlen : t < m.hash_tables.length)
    (hmiss : tblGet (m.hash_tables.getD t []) old_hash = none) :
    m.update_by_idx old_hash new_hash idx t = (m, .err .notFound) := by
  unfold MemoryTable.update_by_idx MemoryTable.remove_idx
  rw [if_pos hlen, hmiss]

/-- C10, witness: table `srpTable1` has no bucket for the code `[2]`, and
`update_by_idx([2], [3], 7, 0)` returns `NotFound` leaving it unchanged. -/
theorem c10_update_by_idx_not_found_witness :
    0 < srpTable1.hash_tables.length
    ∧ tblGet (srpTable1.hash_tables.getD 0 []) [2] = none
    ∧ srpTable1.update_by_idx [2] [3] 7 0 = (srpTable1, .err .notFound) :=
  ⟨by decide, by decide,
    c10_update_by_idx_not_found srpTable1 [2] [3] 7 0 (by decide) (by decide)⟩

/-- C1, witness for the amended theorem: a fresh two-table SRP index over
the integer scalar, storing and querying `[1]`. -/
theorem c1_self_retrieval_amended_witness :
    ((srpEngine 2 false 16).multi_probe = false
      ∧ (srpEngine 2 false 16).hashers ≠ []
      ∧ (srpEngine 2 false 16).hash_tables.n_hash_tables = (srpEngine 2 false 16).hashers.length
      ∧ (srpEngine 2 false 16).hash_tables.hash_tables.length
          = (srpEngine 2 false 16).hashers.length
      ∧ (∀ h ∈ (srpEngine 2 false 16).hashers, h.hash_vec_put [1] = h.hash_vec_query [1])
      ∧ (∀ h ∈ (srpEngine 2 false 16).hashers, (h.hash_vec_put [1]).isSome = true)
      ∧ ([1] : List ℤ).length = (srpEngine 2 false 16).dim)
    ∧ ∃ e' idx s, (srpEngine 2 false 16).store_vec [1] = .ok (e', idx)
        ∧ e'.query_bucket_ids [1] = .ok s ∧ idx ∈ s := by
  have h2 : (srpEngine 2 false 16).hashers ≠ [] := by
    simp [srpEngine]
  have h4 : ∀ h ∈ (srpEngine 2 false 16).hashers,
      h.hash_vec_put ([1] : List ℤ) = h.hash_vec_query [1] := by
    intro h hh
    rw [List.eq_of_mem_replicate hh]
    rfl
  have hsucc : ∀ h ∈ (srpEngine 2 false 16).hashers,
      (h.hash_vec_put ([1] : List ℤ)).isSome = true := by
    intro h hh
    rw [List.eq_of_mem_replicate hh]
    decide
  exact ⟨⟨rfl, h2, rfl, rfl, h4, hsucc, rfl⟩,
    c1_self_retrieval_amended (srpEngine 2 false 16) [1] rfl h2 rfl rfl h4 hsucc rfl⟩

/-! The query-directed probing loop: output shape and budget monotonicity. -/

/-- Each successful `qdp_loop` run extends the accumulated hash list by
exactly one code per unit of budget. -/
theorem qdp_loop_acc (fuel : ℕ) :
    ∀ heap hashes out, qdp_loop fuel heap hashes = .ok out →
      ∃ t, out = hashes ++ t ∧ out.length = hashes.length + fuel := by
  induction fuel with
  | zero =>
      intro heap hashes out h
      refine ⟨[], ?_, ?_⟩
      · cases h; simp
      · cases h; simp
  | succ n ih =>
      intro heap hashes out h
      unfold qdp_loop at h
      cases hp : heap_pop heap with
      | none => rw [hp] at h; cases h
      | some pr =>
          rw [hp] at h
          obtain ⟨t, ht, hlen⟩ := ih _ _ _ h
          refine ⟨pr.1.gen_hash :: t, ?_, ?_⟩
          · rw [ht]; simp
          · rw [hlen]; simp; omega

/-- Budget monotonicity of the probing loop: a run with a larger budget
extends the run with a smaller budget (the first pops coincide). -/
theorem qdp_loop_mono (b : ℕ) :
    ∀ (k : ℕ) heap hashes out', qdp_loop (b + k) heap hashes = .ok out' →
      ∃ out t, qdp_loop b heap hashes = .ok out ∧ out' = out ++ t := by
  induction b with
  | zero =>
      intro k heap hashes out' h
      rw [Nat.zero_add] at h
      obtain ⟨t, ht, _⟩ := qdp_loop_acc k heap hashes out' h
      exact ⟨hashes, t, rfl, ht⟩
  | succ n ih =>
      intro k heap hashes out' h
      have harith : n + 1 + k = (n + k) + 1 := by omega
      rw [harith] at h
      unfold qdp_loop at h ⊢
      cases hp : heap_pop heap with
      | none => rw [hp] at h; cases h
      | some pr =>
          rw [hp] at h
          exact ih k _ _ out' h

/-- A `qdp_loop` run either succeeds with `|hashes| + fuel` codes extending
the accumulator, or fails with the depletion error; no other outcome. -/
theorem qdp_loop_total (fuel : ℕ) :
    ∀ heap hashes,
      (∃ out, qdp_loop fuel heap hashes = .ok out
        ∧ out.length = hashes.length + fuel ∧ ∃ t, out = hashes ++ t)
      ∨ qdp_loop fuel heap hashes
          = .err (.failed "All query directed probing combinations depleted") := by
  induction fuel with
  | zero =>
      intro heap hashes
      exact Or.inl ⟨hashes, rfl, by simp, [], by simp⟩
  | succ n ih =>
      intro heap hashes
      unfold qdp_loop
      cases hp : heap_pop heap with
      | none => exact Or.inr rfl
      | some pr =>
          rcases ih _ (hashes ++ [pr.1.gen_hash]) with ⟨out, hrun, hlen, t, ht⟩ | herr
          · refine Or.inl ⟨out, hrun, ?_, pr.1.gen_hash :: t, ?_⟩
            · rw [hlen]; simp; omega
            · rw [ht]; simp
          · exact Or.inr herr

/-- C7, counterexample.  The claim also covers MIPS hashers, but the
macro-generated `MIPS::query_directed_probe` panics on *every* query when
`m ≥ 1`: hashing the length-`dim` query `[1]` succeeds (it is transformed
to length `dim + m` first), but `distance_to_bound` then dots the raw `q`
against the Deref'd wrapped L2 matrix of `dim + m` columns — an ndarray
shape panic (`.fatal`), which is neither the claimed `budget + 1` code
words nor the claimed depletion error. -/
theorem c7_counterexample :
    MIPS.query_directed_probe id mips0 [1] 4 = .fatal
    ∧ ([1] : List ℚ).length = mips0.dim ∧ 1 ≤ mips0.m := by
  exact ⟨rfl, rfl, Nat.le_refl 1⟩

/-- C7, amended: restricted to L2 hashers (for MIPS the operation panics,
see the counterexample).  For any L2 hasher whose projection rows match the
query dimension (so that the hashing itself cannot panic),
`query_directed_probe(q, budget)` either returns exactly `budget + 1` code
words whose first element is the unperturbed codeword `hash_vec_query(q)`,
or fails with the depletion error when the heap of perturbation states is
exhausted before the budget. -/
theorem c7_qdp_shape (l2 : L2) (q : List ℚ) (budget : ℕ)
    (hdims : l2.a.all (fun row => row.length = q.length) = true) :
    (∃ hash hs, l2.hash_vec_query q = some hash
      ∧ l2.query_directed_probe q budget = .ok hs
      ∧ hs.length = budget + 1 ∧ hs.head? = some hash)
    ∨ l2.query_directed_probe q budget
        = .err (.failed "All query directed probing combinations depleted") := by
  have hmv : mat_vec l2.a q = some (l2.a.map (fun row => dot_prod row q)) := by
    unfold mat_vec
    rw [if_pos hdims]
  obtain ⟨hash, hhash⟩ : ∃ h, l2.hash_vec_query q = some h := by
    unfold L2.hash_vec_query L2.hash_and_cast_vec
    rw [hmv]
    exact ⟨_, rfl⟩
  obtain ⟨p, hdb⟩ : ∃ p, l2.distance_to_bound q hash = some p := by
    unfold L2.distance_to_bound
    rw [hmv]
    exact ⟨_, rfl⟩
  have hred : l2.query_directed_probe q budget
      = qdp_loop budget [⟨argsort (p.1 ++ p.2), p.1 ++ p.2, [0], p.1.length, hash⟩] [hash] := by
    unfold L2.query_directed_probe
    simp only [hhash, hdb]
  rcases qdp_loop_total budget
      [⟨argsort (p.1 ++ p.2), p.1 ++ p.2, [0], p.1.length, hash⟩] [hash] with
    ⟨out, hrun, hlen, t, ht⟩ | herr
  · refine Or.inl ⟨hash, out, hhash, ?_, ?_, ?_⟩
    · rw [hred]; exact hrun
    · rw [hlen]; simp [Nat.add_comm]
    · rw [ht]; rfl
  · exact Or.inr (by rw [hred]; exact herr)

/-- C7, witness: the `1 × 1` hasher `l2a` and query `[1]` at budget 0. -/
theorem c7_qdp_shape_witness :
    (l2a.a.all (fun row => row.length = ([1] : List ℚ).length) = true)
    ∧ ((∃ hash hs, l2a.hash_vec_query [1] = some hash
        ∧ l2a.query_directed_probe [1] 0 = .ok hs
        ∧ hs.length = 0 + 1 ∧ hs.head? = some hash)
      ∨ l2a.query_directed_probe [1] 0
          = .err (.failed "All query directed probing combinations depleted")) :=
  ⟨by decide, c7_qdp_shape l2a [1] 0 (by decide)⟩

/-! Monotonicity of the engine-level query-directed multi-probe union. -/

/-- A successful `process_bucket_union_result` contains its accumulator. -/
theorem process_bucket_ok_sub (m : MemoryTable N) (hash : Code) (i : ℕ)
    (acc a2 : Bucket) (h : process_bucket_union_result m hash i acc = .ok a2) :
    acc ⊆ a2 := by
  unfold process_bucket_union_result MemoryTable.query_bucket at h
  by_cases hlen : i < m.hash_tables.length
  · rw [if_pos hlen] at h
    cases htg : tblGet (m.hash_tables.getD i []) hash with
    | none => rw [htg] at h; cases h; exact Finset.Subset.refl _
    | some b => rw [htg] at h; cases h; exact Finset.subset_union_left
  · rw [if_neg hlen] at h; cases h

/-- `process_bucket_union_result` is monotone in the accumulator. -/
theorem process_bucket_mono (m : MemoryTable N) (hash : Code) (i : ℕ)
    (acc acc' a2' : Bucket) (hsub : acc ⊆ acc')
    (h : process_bucket_union_result m hash i acc' = .ok a2') :
    ∃ a2, process_bucket_union_result m hash i acc = .ok a2 ∧ a2 ⊆ a2' := by
  unfold process_bucket_union_result MemoryTable.query_bucket at h ⊢
  by_cases hlen : i < m.hash_tables.length
  · rw [if_pos hlen] at h ⊢
    cases htg : tblGet (m.hash_tables.getD i []) hash with
    | none =>
        rw [htg] at h
        cases h
        exact ⟨acc, rfl, hsub⟩
    | some b =>
        rw [htg] at h
        cases h
        exact ⟨acc ∪ b, rfl, Finset.union_subset_union hsub (Finset.Subset.refl b)⟩
  · rw [if_neg hlen] at h; cases h

/-- A successful probe loop contains its accumulator. -/
theorem probe_hashes_loop_acc_sub (m : MemoryTable N) (i : ℕ) :
    ∀ (H : List Code) (acc s : Bucket), probe_hashes_loop m i H acc = .ok s → acc ⊆ s := by
  intro H
  induction H with
  | nil =>
      intro acc s h
      cases h
      exact Finset.Subset.refl _
  | cons hh t ih =>
      intro acc s h
      unfold probe_hashes_loop at h
      cases hproc : process_bucket_union_result m hh i acc with
      | ok a2 =>
          rw [hproc] at h
          exact Finset.Subset.trans (process_bucket_ok_sub m hh i acc a2 hproc) (ih a2 s h)
      | err er => rw [hproc] at h; cases h
      | fatal => rw [hproc] at h; cases h

/-- Probing a prefix of the hash list from a smaller accumulator yields a
subset of probing the full list from a larger accumulator. -/
theorem probe_hashes_loop_mono (m : MemoryTable N) (i : ℕ) :
    ∀ (H T : List Code) (acc acc' s' : Bucket), acc ⊆ acc' →
      probe_hashes_loop m i (H ++ T) acc' = .ok s' →
      ∃ s, probe_hashes_loop m i H acc = .ok s ∧ s ⊆ s' := by
  intro H
  induction H with
  | nil =>
      intro T acc acc' s' hsub h
      exact ⟨acc, rfl,
        Finset.Subset.trans hsub (probe_hashes_loop_acc_sub m i T acc' s' h)⟩
  | cons hh Hr ih =>
      intro T acc acc' s' hsub h
      rw [List.cons_append] at h
      unfold probe_hashes_loop at h ⊢
      cases hproc' : process_bucket_union_result m hh i acc' with
      | ok a2' =>
          rw [hproc'] at h
          obtain ⟨a2, hproc, hsub2⟩ := process_bucket_mono m hh i acc acc' a2' hsub hproc'
          obtain ⟨s, hrun, hss⟩ := ih T a2 a2' s' hsub2 h
          rw [hproc]
          exact ⟨s, hrun, hss⟩
      | err er => rw [hproc'] at h; cases h
      | fatal => rw [hproc'] at h; cases h

/-- Engine-level monotonicity of the query-directed loop: if every listed
query-directed hasher produces, at the smaller budget, a prefix of its
larger-budget probe list, then the smaller-budget union is a subset of the
larger-budget one. -/
theorem mp_qd_loop_mono (v : List N) (m : MemoryTable N) (b b' : ℕ) :
    ∀ (l : List (ℕ × HasherFns N)) (acc acc' s' : Bucket),
    (∀ p ∈ l, ∀ f, p.2.as_query_directed_probe = some f →
        ∀ H', f v b' = .ok H' → ∃ H T, f v b = .ok H ∧ H' = H ++ T) →
    acc ⊆ acc' →
    mp_qd_loop v b' m l acc' = .ok s' →
    ∃ s, mp_qd_loop v b m l acc = .ok s ∧ s ⊆ s' := by
  intro l
  induction l with
  | nil =>
      intro acc acc' s' _ hsub h
      cases h
      exact ⟨acc, rfl, hsub⟩
  | cons q rest ih =>
      intro acc acc' s' hqd hsub h
      obtain ⟨i, hq⟩ := q
      unfold mp_qd_loop at h ⊢
      cases hf : hq.as_query_directed_probe with
      | none =>
          simp only [hf] at h
          exact ih acc acc' s' (fun p hp => hqd p (List.mem_cons_of_mem _ hp)) hsub h
      | some f =>
          simp only [hf] at h
          cases hH' : f v b' with
          | ok H' =>
              simp only [hH'] at h
              cases hpl' : probe_hashes_loop m i H' acc' with
              | ok a2' =>
                  simp only [hpl'] at h
                  obtain ⟨H, T, hfb, hHT⟩ :=
                    hqd (i, hq) (List.mem_cons_self _ _) f hf H' hH'
                  rw [hHT] at hpl'
                  obtain ⟨a2, hpl, hsub2⟩ :=
                    probe_hashes_loop_mono m i H T acc acc' a2' hsub hpl'
                  obtain ⟨s, hrun, hss⟩ :=
                    ih a2 a2' s' (fun p hp => hqd p (List.mem_cons_of_mem _ hp)) hsub2 h
                  simp only [hfb, hpl]
                  exact ⟨s, hrun, hss⟩
              | err er => simp only [hpl'] at h; cases h
              | fatal => simp only [hpl'] at h; cases h
          | err er => simp only [hH'] at h; cases h
          | fatal => simp only [hH'] at h; cases h

/-- Per-hasher budget monotonicity of `query_directed_probe`. -/
theorem query_directed_probe_mono (l2 : L2) (v : List ℚ) (b b' : ℕ) (hbb : b ≤ b')
    (H' : List Code) (h : l2.query_directed_probe v b' = .ok H') :
    ∃ H T, l2.query_directed_probe v b = .ok H ∧ H' = H ++ T := by
  cases hq : l2.hash_vec_query v with
  | none =>
      have hfat : l2.query_directed_probe v b' = .fatal := by
        unfold L2.query_directed_probe
        simp only [hq]
      rw [hfat] at h
      cases h
  | some hash =>
      cases hd : l2.distance_to_bound v hash with
      | none =>
          have hfat : l2.query_directed_probe v b' = .fatal := by
            unfold L2.query_directed_probe
            simp only [hq, hd]
          rw [hfat] at h
          cases h
      | some p =>
          have hred : ∀ bb, l2.query_directed_probe v bb
              = qdp_loop bb [⟨argsort (p.1 ++ p.2), p.1 ++ p.2, [0], p.1.length, hash⟩]
                  [hash] := by
            intro bb
            unfold L2.query_directed_probe
            simp only [hq, hd]
          rw [hred b'] at h
          obtain ⟨k, hk⟩ := Nat.le.dest hbb
          rw [← hk] at h
          obtain ⟨out, t, hrun, ht⟩ := qdp_loop_mono b k _ _ H' h
          refine ⟨out, t, ?_, ht⟩
          rw [hred b]
          exact hrun

/-- With budget `0`, `query_directed_probe` emits exactly the unperturbed
codeword (or panics where plain hashing would panic). -/
theorem query_directed_probe_zero (l2 : L2) (v : List ℚ) :
    l2.query_directed_probe v 0
      = match l2.hash_vec_query v with
        | none => .fatal
        | some hash => .ok [hash] := by
  cases hq : l2.hash_vec_query v with
  | none =>
      unfold L2.query_directed_probe
      simp only [hq]
  | some hash =>
      have hq' := hq
      unfold L2.hash_vec_query L2.hash_and_cast_vec at hq'
      obtain ⟨av, hav, _⟩ := Option.map_eq_some'.1 hq'
      obtain ⟨p, hp⟩ : ∃ p, l2.distance_to_bound v hash = some p := by
        unfold L2.distance_to_bound
        rw [hav]
        exact ⟨_, rfl⟩
      unfold L2.query_directed_probe
      simp only [hq, hp]
      rfl

/-- Unfolding step of `mp_qd_loop` at an L2 hasher. -/
theorem mp_qd_loop_cons_l2 (v : List ℚ) (budget : ℕ) (m : MemoryTable ℚ) (i : ℕ) (l2 : L2)
    (rest : List (ℕ × HasherFns ℚ)) (acc : Bucket) :
    mp_qd_loop v budget m ((i, l2.toHasherFns) :: rest) acc
      = match l2.query_directed_probe v budget with
        | .ok hashes =>
            match probe_hashes_loop m i hashes acc with
            | .ok acc' => mp_qd_loop v budget m rest acc'
            | .err er => .err er
            | .fatal => .fatal
        | .err er => .err er
        | .fatal => .fatal := rfl

/-- Unfolding step of `query_union_loop` at an L2 hasher. -/
theorem query_union_loop_cons_l2 (v : List ℚ) (m : MemoryTable ℚ) (i : ℕ) (l2 : L2)
    (rest : List (ℕ × HasherFns ℚ)) (acc : Bucket) :
    query_union_loop v m ((i, l2.toHasherFns) :: rest) acc
      = match l2.hash_vec_query v with
        | none => .fatal
        | some hash =>
            match process_bucket_union_result m hash i acc with
            | .ok acc' => query_union_loop v m rest acc'
            | .err er => .err er
            | .fatal => .fatal := rfl

/-- Probing a single-element hash list is one `process_bucket` step. -/
theorem probe_hashes_loop_one (m : MemoryTable N) (i : ℕ) (hash : Code) (acc : Bucket) :
    probe_hashes_loop m i [hash] acc
      = match process_bucket_union_result m hash i acc with
        | .ok a2 => .ok a2
        | .err er => .err er
        | .fatal => .fatal := by
  unfold probe_hashes_loop
  cases process_bucket_union_result m hash i acc <;> rfl

/-- Budget-0 unfolding of `mp_qd_loop` at an L2 hasher whose hash exists. -/
theorem mp_qd_loop_zero_cons (v : List ℚ) (m : MemoryTable ℚ) (i : ℕ) (l2 : L2)
    (rest : List (ℕ × HasherFns ℚ)) (acc : Bucket) (hash : Code)
    (hq : l2.hash_vec_query v = some hash) :
    mp_qd_loop v 0 m ((i, l2.toHasherFns) :: rest) acc
      = match process_bucket_union_result m hash i acc with
        | .ok acc' => mp_qd_loop v 0 m rest acc'
        | .err er => .err er
        | .fatal => .fatal := by
  rw [mp_qd_loop_cons_l2, query_directed_probe_zero, hq]
  show (match probe_hashes_loop m i [hash] acc with
    | .ok acc' => mp_qd_loop v 0 m rest acc'
    | .err er => .err er
    | .fatal => .fatal) = _
  rw [probe_hashes_loop_one]
  cases process_bucket_union_result m hash i acc <;> rfl

/-- Budget-0 unfolding of `query_union_loop` at an L2 hasher whose hash
exists. -/
theorem query_union_loop_zero_cons (v : List ℚ) (m : MemoryTable ℚ) (i : ℕ) (l2 : L2)
    (rest : List (ℕ × HasherFns ℚ)) (acc : Bucket) (hash : Code)
    (hq : l2.hash_vec_query v = some hash) :
    query_union_loop v m ((i, l2.toHasherFns) :: rest) acc
      = match process_bucket_union_result m hash i acc with
        | .ok acc' => query_union_loop v m rest acc'
        | .err er => .err er
        | .fatal => .fatal := by
  rw [query_union_loop_cons_l2, hq]

/-- With budget `0`, the engine's query-directed multi-probe loop coincides
with the single-probe query loop, table by table. -/
theorem mp_qd_budget0 (v : List ℚ) (m : MemoryTable ℚ) :
    ∀ (l : List (ℕ × HasherFns ℚ)) (acc : Bucket),
    (∀ p ∈ l, ∃ l2 : L2, p.2 = l2.toHasherFns) →
    mp_qd_loop v 0 m l acc = query_union_loop v m l acc := by
  intro l
  induction l with
  | nil => intro acc _; rfl
  | cons q rest ih =>
      intro acc hl2
      obtain ⟨i, hqf⟩ := q
      obtain ⟨l2, hispec⟩ := hl2 (i, hqf) (List.mem_cons_self _ _)
      have hqr : hqf = l2.toHasherFns := hispec
      subst hqr
      cases hq' : l2.hash_vec_query v with
      | none =>
          rw [mp_qd_loop_cons_l2, query_directed_probe_zero, hq', query_union_loop_cons_l2, hq']
      | some hash =>
          rw [mp_qd_loop_zero_cons v m i l2 rest acc hash hq',
            query_union_loop_zero_cons v m i l2 rest acc hash hq']
          cases hproc : process_bucket_union_result m hash i acc with
          | ok a2 => exact ih a2 (fun p hp => hl2 p (List.mem_cons_of_mem _ hp))
          | err er => rfl
          | fatal => rfl

/-- `validate_vec` fails with the shape error on a wrong-length vector. -/
theorem validate_vec_fail (e : LSH N) (v : List A) (hv : ¬ v.length = e.dim) :
    e.validate_vec v = .err dim_err := by
  simp [LSH.validate_vec, dim_err, hv]

/-- `validate_vec` succeeds on a right-length vector. -/
theorem validate_vec_ok (e : LSH N) (v : List A) (hv : v.length = e.dim) :
    e.validate_vec v = .ok () := by
  simp [LSH.validate_vec, hv]

/-- On a valid query, the multi-probe union of an L2 engine is the
query-directed loop over its enumerated hashers. -/
theorem mp_union_l2 (ls : List L2) (t : MemoryTable ℚ) (dim np budget : ℕ) (v : List ℚ)
    (hls : ls ≠ []) (hval : v.length = dim) :
    (l2LSH ls t dim np true budget).multi_probe_bucket_union v
      = mp_qd_loop v budget t (ls.map L2.toHasherFns).enum ∅ := by
  unfold LSH.multi_probe_bucket_union
  rw [validate_vec_ok (l2LSH ls t dim np true budget) v hval]
  cases hls2 : ls with
  | nil => exact absurd hls2 hls
  | cons l0 lrest => rfl

/-- On a valid query, `query_bucket_ids` of a single-probe L2 engine is the
single-probe loop over its enumerated hashers. -/
theorem query_ids_l2 (ls : List L2) (t : MemoryTable ℚ) (dim np : ℕ) (v : List ℚ)
    (hval : v.length = dim) :
    (l2LSH ls t dim np false 0).query_bucket_ids v
      = query_union_loop v t (ls.map L2.toHasherFns).enum ∅ := by
  unfold LSH.query_bucket_ids LSH.query_bucket_union
  rw [validate_vec_ok (l2LSH ls t dim np false 0) v hval]
  rfl

/-- On a wrong-length query, the multi-probe union fails with the shape
error. -/
theorem mp_union_l2_fail (ls : List L2) (t : MemoryTable ℚ) (dim np budget : ℕ)
    (v : List ℚ) (hval : ¬ v.length = dim) :
    (l2LSH ls t dim np true budget).multi_probe_bucket_union v = .err dim_err := by
  unfold LSH.multi_probe_bucket_union
  rw [validate_vec_fail (l2LSH ls t dim np true budget) v hval]

/-- C4, counterexample.  For the step-wise (SRP) strategy the claim's
budget-0 clause fails: after storing `[1]` in a one-table SRP index, the
multi-probe union with budget `0` is empty (the probing sequence is empty,
and in particular omits the original codeword), while the single-probe
`query_bucket_ids` returns `{0}`. -/
theorem c4_counterexample :
    storeResultTable ((srpEngine 1 true 0).store_vec [1]) = some (srpTable1, 0)
    ∧ (srpStored true 0).query_bucket_ids [1] = .ok (∅ : Finset ℕ)
    ∧ (srpStored false 0).query_bucket_ids [1] = .ok ({0} : Finset ℕ)
    ∧ (∅ : Finset ℕ) ≠ {0} := by
  decide

/-- C4, amended: for the query-directed (L2/MIPS) strategy the claim holds:
over any backend state, multi-probe with budget `0` coincides with the
single-probe `query_bucket_ids`, and for budgets `b ≤ b'` whose larger call
succeeds, the smaller succeeds with a subset of the ids. -/
theorem c4_budget_algebra_qdp (ls : List L2) (t : MemoryTable ℚ) (dim np : ℕ)
    (v : List ℚ) (b b' : ℕ) (s' : Bucket)
    (hls : ls ≠ []) (hbb : b ≤ b')
    (hb' : (l2LSH ls t dim np true b').multi_probe_bucket_union v = .ok s') :
    ((l2LSH ls t dim np true 0).multi_probe_bucket_union v
        = (l2LSH ls t dim np false 0).query_bucket_ids v)
    ∧ ∃ s, (l2LSH ls t dim np true b).multi_probe_bucket_union v = .ok s ∧ s ⊆ s' := by
  have hdim : v.length = dim := by
    by_contra hnd
    rw [mp_union_l2_fail ls t dim np b' v hnd] at hb'
    cases hb'
  have hmem : ∀ p ∈ (ls.map L2.toHasherFns).enum, ∃ l2 : L2, p.2 = l2.toHasherFns := by
    intro p hp
    obtain ⟨l2, _, hl2⟩ := List.mem_map.1 (mem_enum_snd hp)
    exact ⟨l2, hl2.symm⟩
  constructor
  · rw [mp_union_l2 ls t dim np 0 v hls hdim, query_ids_l2 ls t dim np v hdim]
    exact mp_qd_budget0 v t (ls.map L2.toHasherFns).enum ∅ hmem
  · rw [mp_union_l2 ls t dim np b' v hls hdim] at hb'
    rw [mp_union_l2 ls t dim np b v hls hdim]
    refine mp_qd_loop_mono v t b b' (ls.map L2.toHasherFns).enum ∅ ∅ s' ?_
      (Finset.Subset.refl ∅) hb'
    intro p hp f hf H' hH'
    obtain ⟨l2, hl2⟩ := hmem p hp
    have hfq : f = l2.query_directed_probe := by
      rw [hl2] at hf
      exact (Option.some_inj.1 hf.symm)
    rw [hfq] at hH' ⊢
    exact query_directed_probe_mono l2 v b b' hbb H' hH'

/-- C4, witness for the amended theorem: one L2 hasher over an empty
one-table backend, query `[1]`, budgets `0 ≤ 0`. -/
theorem c4_budget_algebra_qdp_witness :
    (([l2a] : List L2) ≠ [] ∧ (0 : ℕ) ≤ 0
      ∧ (l2LSH [l2a] emptyTable1 1 1 true 0).multi_probe_bucket_union [1]
          = .ok (∅ : Finset ℕ))
    ∧ (((l2LSH [l2a] emptyTable1 1 1 true 0).multi_probe_bucket_union [1]
          = (l2LSH [l2a] emptyTable1 1 1 false 0).query_bucket_ids [1])
        ∧ ∃ s, (l2LSH [l2a] emptyTable1 1 1 true 0).multi_probe_bucket_union [1] = .ok s
            ∧ s ⊆ (∅ : Finset ℕ)) :=
  ⟨⟨List.cons_ne_nil _ _, Nat.le_refl 0, rfl⟩,
    c4_budget_algebra_qdp [l2a] emptyTable1 1 1 [1] 0 0 ∅ (List.cons_ne_nil _ _)
      (Nat.le_refl 0) rfl⟩

/-- C8, counterexample.  `LSH::update_by_idx` performs no shape validation:
with a `dim = 1` L2 engine, updating with the wrong-length vector `[1, 2]`
reaches the hasher and panics inside the ndarray dot product instead of
returning a (shape) error. -/
theorem c8_counterexample : l2Eng.update_by_idx 0 [1, 2] [1] = .fatal := rfl

/-- C8, amended.  The operations that do validate — `store_vec`,
`store_vecs` (its *first* vector), `query_bucket`, `query_bucket_ids` and
`delete_vec` — reject a wrong-length vector with the shape error before any
state is touched; `update_by_idx` is excluded (it does not validate and
panics in the hasher, see the counterexample). -/
theorem c8_shape_validation_amended [DecidableEq N] (e : LSH N) (v : List N)
    (rest : List (List N)) (hv : ¬ v.length = e.dim) :
    e.store_vec v = .err dim_err
    ∧ e.store_vecs (v :: rest) = .err dim_err
    ∧ e.query_bucket_ids v = .err dim_err
    ∧ e.query_bucket v = .err dim_err
    ∧ e.delete_vec v = .err dim_err := by
  have hval : e.validate_vec v = .err dim_err := validate_vec_fail e v hv
  refine ⟨?_, ?_, ?_, ?_, ?_⟩
  · unfold LSH.store_vec
    rw [hval]
  · unfold LSH.store_vecs
    simp only [hval]
  · unfold LSH.query_bucket_ids
    rw [hval]
  · unfold LSH.query_bucket
    rw [hval]
  · unfold LSH.delete_vec
    rw [hval]

/-- C8, witness: the `dim = 1` L2 engine and the length-2 vector `[1, 2]`. -/
theorem c8_shape_validation_amended_witness :
    (¬ ([1, 2] : List ℚ).length = l2Eng.dim)
    ∧ (l2Eng.store_vec [1, 2] = .err dim_err
      ∧ l2Eng.store_vecs [[1, 2]] = .err dim_err
      ∧ l2Eng.query_bucket_ids [1, 2] = .err dim_err
      ∧ l2Eng.query_bucket [1, 2] = .err dim_err
      ∧ l2Eng.delete_vec [1, 2] = .err dim_err) :=
  ⟨by decide, c8_shape_validation_amended l2Eng [1, 2] [] (by decide)⟩

/-- The running maximum computed by `MIPS::fit` dominates its seed and
every norm it has seen. -/
theorem fit_fold_ge (sqrt : ℚ → ℚ) :
    ∀ (vs : List (List ℚ)) (a : ℚ),
      a ≤ vs.foldl
          (fun max_l2 x => let l2 := l2_norm sqrt x;
            if max_l2 < l2 then l2 else max_l2) a
      ∧ ∀ x ∈ vs, l2_norm sqrt x
          ≤ vs.foldl
              (fun max_l2 x => let l2 := l2_norm sqrt x;
                if max_l2 < l2 then l2 else max_l2) a := by
  intro vs
  induction vs with
  | nil => intro a; exact ⟨le_refl a, by simp⟩
  | cons xx rest ih =>
      intro a
      have hstep : a ≤ (if a < l2_norm sqrt xx then l2_norm sqrt xx else a)
          ∧ l2_norm sqrt xx ≤ (if a < l2_norm sqrt xx then l2_norm sqrt xx else a) := by
        by_cases hlt : a < l2_norm sqrt xx
        · rw [if_pos hlt]
          exact ⟨le_of_lt hlt, le_refl _⟩
        · rw [if_neg hlt]
          exact ⟨le_refl a, not_lt.1 hlt⟩
      obtain ⟨hseed, hmem⟩ := ih (if a < l2_norm sqrt xx then l2_norm sqrt xx else a)
      refine ⟨le_trans hstep.1 hseed, ?_⟩
      intro y hy
      rcases List.mem_cons.1 hy with rfl | hy'
      · exact le_trans hstep.2 hseed
      · exact hmem y hy'

/-- C9: `MIPS::hash_vec_put` (through `tranform_put`) panics iff the fitted
maximum norm `M` is zero; after a `fit` over a data set containing a vector
of positive norm, `M > 0` and `hash_vec_put` is total (given matching
dimensions of the wrapped L2 hasher); `hash_vec_query` never reads `M` and
so never requires `fit`. -/
theorem c9_mips_fit_precondition (sqrt : ℚ → ℚ) (mips : MIPS) (vs : List (List ℚ))
    (x : List ℚ)
    (hpos : ∀ y : ℚ, 0 < y → 0 < sqrt y)
    (hx : x ∈ vs) (hxpos : 0 < dot_prod x x)
    (hrows : ∀ row ∈ mips.hasher.a, row.length = x.length + mips.m) :
    (mips.tranform_put sqrt x = .fatal ↔ mips.M = 0)
    ∧ 0 < (MIPS.fit sqrt mips vs).M
    ∧ (∃ h, (MIPS.fit sqrt mips vs).hash_vec_put sqrt x = .ok h)
    ∧ (∀ M' q, MIPS.hash_vec_query sqrt { mips with M := M' } q
        = MIPS.hash_vec_query sqrt mips q) := by
  have hMpos : 0 < (MIPS.fit sqrt mips vs).M := by
    have hnorm : 0 < l2_norm sqrt x := hpos (dot_prod x x) hxpos
    have hge := (fit_fold_ge sqrt vs 0).2 x hx
    exact lt_of_lt_of_le hnorm hge
  refine ⟨?_, hMpos, ?_, fun M' q => rfl⟩
  · constructor
    · intro hf
      by_contra hM
      unfold MIPS.tranform_put at hf
      rw [if_neg hM] at hf
      cases hf
    · intro hM
      unfold MIPS.tranform_put
      rw [if_pos hM]
  · have hM : ¬ (MIPS.fit sqrt mips vs).M = 0 := ne_of_gt hMpos
    obtain ⟨p, hput, hplen⟩ : ∃ p, (MIPS.fit sqrt mips vs).tranform_put sqrt x = .ok p
        ∧ p.length = x.length + mips.m := by
      unfold MIPS.tranform_put
      rw [if_neg hM]
      exact ⟨_, rfl, by simp [MIPS.fit]⟩
    obtain ⟨hh, hhq⟩ : ∃ hh, (MIPS.fit sqrt mips vs).hasher.hash_vec_query p = some hh := by
      unfold L2.hash_vec_query L2.hash_and_cast_vec mat_vec
      rw [if_pos ?hall]
      case hall =>
        rw [List.all_eq_true]
        intro row hrow
        rw [decide_eq_true_eq]
        rw [hrows row hrow, hplen]
      exact ⟨_, rfl⟩
    refine ⟨hh, ?_⟩
    unfold MIPS.hash_vec_put
    simp only [hput, hhq]

/-- C9, witness: `sqrt := id` (which maps positives to positives), the
unfitted hasher `mips0`, the data set `[[1]]` and the vector `[1]`. -/
theorem c9_mips_fit_precondition_witness :
    ((∀ y : ℚ, 0 < y → 0 < id y) ∧ [1] ∈ [[(1 : ℚ)]] ∧ 0 < dot_prod [(1 : ℚ)] [1]
      ∧ (∀ row ∈ mips0.hasher.a, row.length = ([1] : List ℚ).length + mips0.m))
    ∧ ((mips0.tranform_put id [1] = .fatal ↔ mips0.M = 0)
      ∧ 0 < (MIPS.fit id mips0 [[1]]).M
      ∧ (∃ h, (MIPS.fit id mips0 [[1]]).hash_vec_put id [1] = .ok h)
      ∧ MIPS.hash_vec_query id { mips0 with M := 5 } [3] = MIPS.hash_vec_query id mips0 [3]) := by
  have hpos : ∀ y : ℚ, 0 < y → 0 < id y := fun y hy => hy
  have hx : [1] ∈ [[(1 : ℚ)]] := List.mem_singleton.2 rfl
  have hxpos : 0 < dot_prod [(1 : ℚ)] [1] := by
    simp [dot_prod]
  have hrows : ∀ row ∈ mips0.hasher.a, row.length = ([1] : List ℚ).length + mips0.m := by
    intro row hrow
    rw [List.mem_singleton.1 hrow]
    rfl
  have hmain := c9_mips_fit_precondition id mips0 [[1]] [1] hpos hx hxpos hrows
  exact ⟨⟨hpos, hx, hxpos, hrows⟩,
    hmain.1, hmain.2.1, hmain.2.2.1, hmain.2.2.2 5 [3]⟩

end LshRs
